import Mathlib

/-!
Verification development for the verseodin_engine URL discovery core.

The definitions below are a shallow embedding of the Python sources:
  - services/finder/finder_service.py   (FinderService: crawl orchestrator,
    batch processing, URL deduplication, in-crawl domain filter)
  - services/finder/url_processor.py    (URLProcessorService domain filter)
  - services/finder/utils.py            (URL normalization helpers)
  - services/query_universe/utils.py    (priority selection)
  - services/query_universe/config.py   (PRIORITY_PAGE_PATTERNS)

Network fetches are modelled by an oracle `Net` mapping a URL to the
response the crawler observes; `urljoin` is modelled as an uninterpreted
collaborator parameter `Join`.  Python sets whose iteration order is
irrelevant to the claims are modelled as `Finset String` or as
first-occurrence-deduplicated lists.
-/

namespace Verseodin

/-- Model of CPython `urllib.parse.urlparse` results (scheme, netloc, path,
params, query, fragment). -/
structure UrlParts where
  scheme : String
  netloc : String
  path : String
  params : String
  query : String
  fragment : String
deriving DecidableEq

/-- Kernel-reducible replacement for `String.startsWith` (Python
`str.startswith`), working on the character lists. -/
def pyStartsWith (s pre : String) : Bool :=
  pre.toList.isPrefixOf s.toList

/-- Kernel-reducible replacement for `String.endsWith` (Python
`str.endswith`). -/
def pyEndsWith (s suf : String) : Bool :=
  suf.toList.reverse.isPrefixOf s.toList.reverse

/-- Kernel-reducible replacement for `String.toLower` (Python
`str.lower`, ASCII range). -/
def pyToLower (s : String) : String :=
  String.mk (s.toList.map Char.toLower)

/-- Characters allowed in a URL scheme after the leading letter. -/
def isSchemeChar (c : Char) : Bool :=
  c.isAlpha || c.isDigit || c = '+' || c = '-' || c = '.'

/-- Split a character list at the first occurrence of `c`; the second
component is `none` when `c` does not occur. -/
def splitOnFirst (c : Char) : List Char → List Char × Option (List Char)
  | [] => ([], none)
  | x :: xs =>
    if x = c then ([], some xs)
    else
      let r := splitOnFirst c xs
      (x :: r.1, r.2)

/-- Scheme detection of CPython urlsplit: the text before the first colon is
a scheme when it is nonempty, starts with a letter and has only scheme
characters; the scheme is lowercased. -/
def splitScheme (u : List Char) : List Char × List Char :=
  match splitOnFirst ':' u with
  | (before, some after) =>
    if before ≠ [] ∧ (before.headD ' ').isAlpha ∧ before.all isSchemeChar then
      (before.map Char.toLower, after)
    else ([], u)
  | (_, none) => ([], u)

/-- Netloc detection of CPython urlsplit: after a leading `//`, the netloc
runs until the next `/`, `?` or `#`. -/
def splitNetloc (u : List Char) : List Char × List Char :=
  match u with
  | '/' :: '/' :: rest =>
    let n := rest.takeWhile (fun c => !(c = '/' || c = '?' || c = '#'))
    (n, rest.drop n.length)
  | _ => ([], u)

/-- Index of the last occurrence of `c` in `l`, if any. -/
def lastIdxOf (c : Char) (l : List Char) : Option Nat :=
  (l.enum.filter (fun p => p.2 = c)).getLast?.map (·.1)

/-- Index of the first occurrence of `c` in `l` at position `start` or
later, if any. -/
def idxOfFrom (c : Char) (start : Nat) (l : List Char) : Option Nat :=
  ((l.drop start).enum.filter (fun p => p.2 = c)).head?.map (·.1 + start)

/-- CPython `_splitparams`: split path parameters after the last slash. -/
def splitParams (p : List Char) : List Char × List Char :=
  let i : Option Nat :=
    if '/' ∈ p then
      match lastIdxOf '/' p with
      | some j => idxOfFrom ';' j p
      | none => none
    else idxOfFrom ';' 0 p
  match i with
  | some k => (p.take k, p.drop (k + 1))
  | none => (p, [])

/-- Schemes for which CPython urlparse splits path parameters. -/
def usesParams : List String :=
  ["", "ftp", "hdl", "prospero", "http", "imap", "https", "shttp", "rtsp",
   "rtspu", "sip", "sips", "mms", "sftp", "tel"]

/-- Model of CPython `urllib.parse.urlparse`: scheme, then netloc, then
fragment, then query, then path parameters. -/
def pyUrlparse (url : String) : UrlParts :=
  let u0 := url.toList
  let su := splitScheme u0
  let nu := splitNetloc su.2
  let uf : List Char × List Char :=
    match splitOnFirst '#' nu.2 with
    | (a, some b) => (a, b)
    | (a, none) => (a, [])
  let pq : List Char × List Char :=
    match splitOnFirst '?' uf.1 with
    | (a, some b) => (a, b)
    | (a, none) => (a, [])
  let scheme := String.mk su.1
  let pp : List Char × List Char :=
    if scheme ∈ usesParams ∧ ';' ∈ pq.1 then splitParams pq.1 else (pq.1, [])
  { scheme := scheme
    netloc := String.mk nu.1
    path := String.mk pp.1
    params := String.mk pp.2
    query := String.mk pq.2
    fragment := String.mk uf.2 }

/-- Model of finder/utils.py `validate_input_url`: prepend https when the
input has no http or https scheme marker. -/
def validate_input_url (url : String) : String :=
  if pyStartsWith url "http://" ∨ pyStartsWith url "https://" then url
  else "https://" ++ url

/-- Model of finder/utils.py `extract_homepage_from_url`: parse (after
defaulting to https) and rebuild scheme plus netloc. -/
def extract_homepage_from_url (url : String) : String :=
  let p := pyUrlparse
    (if pyStartsWith url "http://" ∨ pyStartsWith url "https://" then url
     else "https://" ++ url)
  p.scheme ++ "://" ++ p.netloc

/-- Modelled from the spec: finder/config.py is not in the provided sources
(only its importers are); the spec describes the default
`excludedExtensions` as common binary, media and archive extensions. -/
def EXCLUDED_EXTENSIONS : List String :=
  [".jpg", ".jpeg", ".png", ".gif", ".svg", ".webp", ".ico", ".bmp",
   ".pdf", ".doc", ".docx", ".xls", ".xlsx", ".ppt", ".pptx",
   ".zip", ".tar", ".gz", ".rar", ".7z",
   ".mp3", ".mp4", ".avi", ".mov", ".wmv", ".exe", ".dmg", ".css", ".js"]

/-- Model of FinderService `_is_valid_domain_url`: the in-crawl filter
checks netloc equality with the target domain and that the lowercased path
does not end with an excluded extension.  It performs no scheme check. -/
def is_valid_domain_url (domain : String) (url : String) : Bool :=
  let p := pyUrlparse url
  if p.netloc ≠ domain then false
  else if EXCLUDED_EXTENSIONS.any (fun ext => pyEndsWith (pyToLower p.path) ext) then false
  else true

/-- Model of URLProcessorService `_is_valid_url_for_domain` with
`options = None`: netloc equality (require_same_domain defaults to true),
scheme restricted to http or https, and no excluded extension at the end
of the lowercased full URL. -/
def is_valid_url_for_domain (url : String) (domain : String) : Bool :=
  let p := pyUrlparse url
  decide (p.netloc = domain) &&
    (decide (p.scheme = "http") || decide (p.scheme = "https")) &&
    !(EXCLUDED_EXTENSIONS.any (fun ext => pyEndsWith (pyToLower url) ext))

/-! ### Deduplicator: FinderService `_deduplicate_urls` -/

/-- Canonical key of `_deduplicate_urls`: netloc and path, with query and
fragment appended when nonempty (the scheme is excluded). -/
def canonical_key (url : String) : String :=
  let p := pyUrlparse url
  let k := p.netloc ++ p.path
  let k := if p.query ≠ "" then k ++ "?" ++ p.query else k
  if p.fragment ≠ "" then k ++ "#" ++ p.fragment else k

/-- First pass of `_deduplicate_urls`: drop fragment URLs, URLs already
processed (successful or failed) and exact duplicates, preserving order.
The accumulator mirrors both `unique_urls` and the `seen_urls` set. -/
def unique_pass (processed : Finset String) : List String → List String → List String
  | [], acc => acc
  | u :: us, acc =>
    if (pyUrlparse u).fragment ≠ "" then unique_pass processed us acc
    else if u ∈ processed ∨ u ∈ acc then unique_pass processed us acc
    else unique_pass processed us (acc ++ [u])

/-- Append a URL to the group of its key, creating the group at the end
when the key is new (Python dict insertion order). -/
def add_to_groups : List (String × List String) → String → String → List (String × List String)
  | [], k, u => [(k, [u])]
  | g :: gs, k, u =>
    if g.1 = k then (g.1, g.2 ++ [u]) :: gs
    else g :: add_to_groups gs k u

/-- Second pass of `_deduplicate_urls`: group surviving URLs by canonical
key in first-occurrence order. -/
def build_groups : List String → List (String × List String) → List (String × List String)
  | [], gs => gs
  | u :: us, gs => build_groups us (add_to_groups gs (canonical_key u) u)

/-- Third pass of `_deduplicate_urls`: a singleton group keeps its member;
otherwise the first https URL is preferred, then the first http URL, then
the first member. -/
def choose_rep (g : List String) : String :=
  if g.length = 1 then g.headD ""
  else
    match g.filter (fun u => pyStartsWith u "https://") with
    | u :: _ => u
    | [] =>
      match g.filter (fun u => pyStartsWith u "http://") with
      | u :: _ => u
      | [] => g.headD ""

/-- Model of FinderService `_deduplicate_urls`. -/
def dedup_urls (succ fail : Finset String) (urls : List String) : List String :=
  let processed := succ ∪ fail
  let uniq := unique_pass processed urls []
  let groups := build_groups uniq []
  groups.map (fun g => choose_rep g.2)

/-! ### Crawl orchestrator: FinderService `find_urls` and helpers -/

/-- Per-URL outcome status of `_crawl_url` and `_process_batch`. -/
inductive FetchStatus
  | success
  | failed
  | error
deriving DecidableEq

/-- Model of the per-URL result dict produced by `_crawl_url` (url,
status, new_urls). -/
structure FetchOutcome where
  url : String
  status : FetchStatus
  new_urls : List String
deriving DecidableEq

/-- Oracle describing what the network returns for a fetched URL: an HTTP
response with a status code and the href values extracted from its body by
BeautifulSoup, a timeout, an exception raised inside `_crawl_url`, or an
exception escaping `_crawl_url` (handled by the semaphore wrapper). -/
inductive NetResult
  | http (status : Nat) (hrefs : List String)
  | timeout
  | exc (msg : String)
  | crash (msg : String)

/-- Network oracle: each URL is fetched at most once per crawl, so a
function of the URL loses no generality. -/
abbrev Net := String → NetResult

/-- Uninterpreted model of `urllib.parse.urljoin base href`. -/
abbrev Join := String → String → String

/-- First-occurrence deduplication, modelling `list(set(xs))` where the
claims do not depend on the resulting order. -/
def dedupKeepFirst : List String → List String → List String
  | [], _ => []
  | x :: xs, seen =>
    if x ∈ seen then dedupKeepFirst xs seen
    else x :: dedupKeepFirst xs (x :: seen)

/-- Link extraction of `_crawl_url` on a 200 response: nonempty hrefs are
resolved against the page URL, filtered by `_is_valid_domain_url`, and
deduplicated by `list(set(...))`. -/
def extract_links (join : Join) (domain url : String) (hrefs : List String) : List String :=
  dedupKeepFirst (((hrefs.filter (fun h => h ≠ "")).map (join url)).filter
    (fun u => is_valid_domain_url domain u)) []

/-- Model of `_crawl_url`: non-200 responses yield a failed outcome with no
links; timeouts and exceptions caught inside `_crawl_url` yield failed; a
200 response yields success with the extracted links. -/
def crawl_url (net : Net) (join : Join) (domain url : String) : FetchOutcome :=
  match net url with
  | .http s hrefs =>
    if s ≠ 200 then ⟨url, .failed, []⟩
    else ⟨url, .success, extract_links join domain url hrefs⟩
  | .timeout => ⟨url, .failed, []⟩
  | .exc _ => ⟨url, .failed, []⟩
  | .crash _ => ⟨url, .failed, []⟩

/-- Model of `crawl_url_with_semaphore` and the gather wrapper in
`_process_batch`: an exception escaping `_crawl_url` becomes an error
outcome with no links. -/
def crawl_url_task (net : Net) (join : Join) (domain url : String) : FetchOutcome :=
  match net url with
  | .crash _ => ⟨url, .error, []⟩
  | _ => crawl_url net join domain url

/-- Model of `_process_batch`: all URLs of the batch are fetched and their
outcomes collected in order. -/
def process_batch (net : Net) (join : Join) (domain : String) (batch : List String) :
    List FetchOutcome :=
  batch.map (crawl_url_task net join domain)

/-- Inner loop of the result processing in `_process_depth_with_progress`:
collect the new URLs of one success outcome, skipping URLs already
successful, already failed, or already collected in this batch. -/
def collect_new_urls (succ fail : Finset String) : List String → List String → List String
  | [], acc => acc
  | u :: us, acc =>
    if u ∈ succ ∨ u ∈ fail ∨ u ∈ acc then collect_new_urls succ fail us acc
    else collect_new_urls succ fail us (acc ++ [u])

/-- Result loop of `_process_depth_with_progress`: successes enter
`successful_urls` and contribute new URLs; failures and errors enter
`failed_urls`.  Returns (successful, failed, batch_new_urls). -/
def process_results : List FetchOutcome → Finset String → Finset String → List String →
    Finset String × Finset String × List String
  | [], s, f, acc => (s, f, acc)
  | r :: rs, s, f, acc =>
    match r.status with
    | .success =>
      let s' := insert r.url s
      process_results rs s' f (collect_new_urls s' f r.new_urls acc)
    | _ => process_results rs s (insert r.url f) acc

/-- Structural worker for `chunks`: the fuel bounds the number of chunks
produced and starts at the list length. -/
def chunksFuel : Nat → Nat → List String → List (List String)
  | 0, _, _ => []
  | _ + 1, _, [] => []
  | fuel + 1, b, x :: xs => (x :: xs).take b :: chunksFuel fuel b ((x :: xs).drop b)

/-- Fixed-size batching of `_process_depth_with_progress`.  Python raises
for a zero step, so a zero batch size yields no batches here and theorems
assume a positive batch size. -/
def chunks (b : Nat) (l : List String) : List (List String) :=
  if b = 0 then [] else chunksFuel l.length b l

/-- Python list truncation `l[:n]` for a possibly negative bound. -/
def pyTruncate (l : List String) (n : Int) : List String :=
  if 0 ≤ n then l.take n.toNat
  else l.take (l.length - n.natAbs)

/-- Crawl state carried by a FinderService instance across
`find_urls`: the successful and failed URL sets and the maximum depth
reached.  `fetched` records every URL passed to `_crawl_url`, and
`boundaries` snapshots (successful, failed) at each depth boundary; both
are observation-only instrumentation. -/
structure CrawlState where
  successful : Finset String
  failed : Finset String
  maxDepthReached : Nat
  fetched : List String
  boundaries : List (Finset String × Finset String)

/-- Batch loop of `_process_depth_with_progress`: process batches in
order, fold outcomes into the state, extend the next-depth list, and stop
once the successful count reaches `max_urls`. -/
def process_batches (net : Net) (join : Join) (domain : String) (maxUrls : Nat) :
    List (List String) → CrawlState → List String → CrawlState × List String
  | [], st, next => (st, next)
  | b :: bs, st, next =>
    let results := process_batch net join domain b
    let r := process_results results st.successful st.failed []
    let st' : CrawlState :=
      { st with successful := r.1, failed := r.2.1, fetched := st.fetched ++ b }
    let next' := next ++ r.2.2
    if maxUrls ≤ r.1.card then (st', next')
    else process_batches net join domain maxUrls bs st' next'

/-- Model of `_process_depth_with_progress`: batch the URLs, process them,
and return the next-depth URLs truncated to `max_urls` minus the current
successful count (Python slice semantics when negative). -/
def process_depth (net : Net) (join : Join) (domain : String) (maxUrls batchSize : Nat)
    (urls : List String) (st : CrawlState) : CrawlState × List String :=
  let r := process_batches net join domain maxUrls (chunks batchSize urls) st []
  (r.1, pyTruncate r.2 ((maxUrls : Int) - (r.1.successful.card : Int)))

/-- Record a depth boundary snapshot of the two URL sets. -/
def markBoundary (st : CrawlState) : CrawlState :=
  { st with boundaries := st.boundaries ++ [(st.successful, st.failed)] }

/-- Depth loop of `find_urls` for depths 1 and beyond: set the depth
reached, stop on an empty frontier, deduplicate, process the depth, and
stop once the target count is reached. -/
def crawl_from (net : Net) (join : Join) (domain : String) (maxUrls batchSize : Nat) :
    Nat → Nat → CrawlState → List String → CrawlState
  | 0, _, st, _ => st
  | d + 1, depth, st, next =>
    let st := { st with maxDepthReached := depth }
    if next.isEmpty then st
    else
      let urls := dedup_urls st.successful st.failed next
      let r := process_depth net join domain maxUrls batchSize urls st
      let st' := markBoundary r.1
      if maxUrls ≤ st'.successful.card then st'
      else crawl_from net join domain maxUrls batchSize d (depth + 1) st' r.2

/-- Depth 0 of `find_urls` followed by the loop over the remaining
depths: process the homepage alone, record the depth boundary, check the
target, then run depths 1 and beyond. -/
def depth0_and_loop (net : Net) (join : Join) (domain homepage : String)
    (maxDepth maxUrls batchSize : Nat) (st0 : CrawlState) : CrawlState :=
  let r := process_depth net join domain maxUrls batchSize [homepage] st0
  let st1 := markBoundary r.1
  if maxUrls ≤ st1.successful.card then st1
  else crawl_from net join domain maxUrls batchSize maxDepth 1 st1 r.2

/-- Model of `FinderService.find_urls` running on an instance whose
`successful_urls` and `failed_urls` currently hold `succ0` and `fail0`
(empty on a fresh instance): normalize the input URL, pre-seed the
homepage as successful, process depth 0 with the homepage alone, then run
the remaining depths. -/
def find_urls_from (net : Net) (join : Join) (succ0 fail0 : Finset String)
    (input_url : String) (maxDepth maxUrls batchSize : Nat) : CrawlState :=
  let homepage := extract_homepage_from_url (validate_input_url input_url)
  let domain := (pyUrlparse homepage).netloc
  depth0_and_loop net join domain homepage maxDepth maxUrls batchSize
    { successful := insert homepage succ0, failed := fail0,
      maxDepthReached := 0, fetched := [], boundaries := [] }

/-- One crawl invocation on a fresh FinderService instance, as constructed
by the module-level entry points `find_all_urls` and `main`. -/
def find_urls (net : Net) (join : Join) (input_url : String)
    (maxDepth maxUrls batchSize : Nat) : CrawlState :=
  find_urls_from net join ∅ ∅ input_url maxDepth maxUrls batchSize

/-! ### Priority selection: query_universe/utils.py `select_urls_to_crawl` -/

/-- Kernel-reducible substring test (Python `in` on strings). -/
def listInfixOf (pat : List Char) : List Char → Bool
  | [] => pat.isEmpty
  | x :: xs => pat.isPrefixOf (x :: xs) || listInfixOf pat xs

/-- Python `pat in hay` for strings. -/
def strContains (hay pat : String) : Bool :=
  listInfixOf pat.toList hay.toList

/-- Python `str.strip()`: remove leading and trailing whitespace. -/
def pyStrip (s : String) : String :=
  String.mk (((s.toList.dropWhile Char.isWhitespace).reverse.dropWhile
    Char.isWhitespace).reverse)

/-- Python `path.rstrip("/")`: remove all trailing slashes. -/
def rstripSlash (s : String) : String :=
  String.mk ((s.toList.reverse.dropWhile (fun c => c = '/')).reverse)

/-- Replacement worker with fuel (fuel starts at the list length, pattern
nonempty). -/
def replaceFuel (pat rep : List Char) : Nat → List Char → List Char
  | 0, l => l
  | _ + 1, [] => []
  | fuel + 1, x :: xs =>
    if pat ≠ [] ∧ pat.isPrefixOf (x :: xs) then
      rep ++ replaceFuel pat rep fuel ((x :: xs).drop pat.length)
    else x :: replaceFuel pat rep fuel xs

/-- Python `str.replace(pat, rep)` for a nonempty pattern: replace all
non-overlapping occurrences left to right. -/
def pyReplace (s pat rep : String) : String :=
  String.mk (replaceFuel pat.toList rep.toList s.toList.length s.toList)

/-- Alternatives of the TLD-stripping regex in
`extract_brand_name_from_url`. -/
def tldAlts : List String := ["com", "org", "net", "io", "co", "ai", "app", "dev"]

/-- Leftmost-match semantics of `re.sub` with a dot followed by a TLD
alternative and a trailing wildcard: cut everything from the first dot
followed by one of the alternatives. -/
def tldStripList : List Char → List Char
  | [] => []
  | x :: xs =>
    if x = '.' ∧ tldAlts.any (fun a => a.toList.isPrefixOf xs) then []
    else x :: tldStripList xs

/-- Model of `extract_brand_name_from_url`: netloc with all `www.`
occurrences removed, TLD suffix stripped, lowercased. -/
def extract_brand_name_from_url (url : String) : String :=
  let domain := (pyUrlparse url).netloc
  let domain := pyReplace domain "www." ""
  let domain := String.mk (tldStripList domain.toList)
  pyToLower domain

/-- Maximal alphabetic runs of a character list (Python
`re.split` on non-alphabetic runs, empty pieces skipped). -/
def alphaRunsGo : List Char → List Char → List (List Char)
  | [], cur => if cur.isEmpty then [] else [cur.reverse]
  | x :: xs, cur =>
    if x.isAlpha then alphaRunsGo xs (x :: cur)
    else if cur.isEmpty then alphaRunsGo xs []
    else cur.reverse :: alphaRunsGo xs []

/-- Append a token unless already present (Python set insertion with
membership-only use afterwards). -/
def addTok (t : String) (l : List String) : List String :=
  if t ∈ l then l else l ++ [t]

/-- Generic suffixes stripped by `brand_tokens_from_domain`. -/
def brandSuffixes : List String :=
  ["app", "apps", "ai", "tech", "labs", "hq", "inc", "co", "io", "dev", "technology"]

/-- Model of `brand_tokens_from_domain`: the base brand name, its core
label, suffix-stripped variants and alphabetic components, keeping tokens
of length at least 4. -/
def brand_tokens_from_domain (url : String) : List String :=
  let base := extract_brand_name_from_url url
  if base = "" then []
  else
    let core_label := String.mk (splitOnFirst '.' base.toList).1
    let toks := addTok base (if core_label ≠ "" then addTok core_label [] else [])
    let toks2 := toks.foldl (fun acc t =>
      brandSuffixes.foldl (fun acc suf =>
        if pyEndsWith t suf ∧ suf.length + 2 < t.length then
          let core := String.mk ((t.toList.take (t.length - suf.length)).filter
            (fun c => c.isAlpha))
          if core ≠ "" then addTok (pyToLower core) acc else acc
        else acc) acc) toks
    let parts := (alphaRunsGo base.toList []).map (fun r => pyToLower (String.mk r))
    let toks3 := parts.foldl (fun acc p => if p ≠ "" then addTok p acc else acc) toks2
    toks3.filter (fun t => t ≠ "" ∧ 4 ≤ t.length)

/-- Model of `get_url_path`: lowercased path component. -/
def get_url_path (url : String) : String :=
  pyToLower (pyUrlparse url).path

/-- Pattern loop of `matches_priority_pattern`: a bare `/` or empty
pattern returns immediately whether the path is bare; otherwise match by
equality, prefix with `/` or `?`, or substring. -/
def matchPatterns (path : String) : List String → Bool
  | [] => false
  | p :: ps =>
    if p = "/" ∨ p = "" then decide (path = "/" ∨ path = "")
    else
      let pl := pyToLower p
      if path = pl then true
      else if pyStartsWith path (pl ++ "/") ∨ pyStartsWith path (pl ++ "?") then true
      else if strContains path pl then true
      else matchPatterns path ps

/-- Model of `matches_priority_pattern`. -/
def matches_priority_pattern (url : String) (patterns : List String) : Bool :=
  matchPatterns (get_url_path url) patterns

/-- Model of `is_brand_blog`: a brand token occurs in the lowercased path,
or in the lowercased title when one is given. -/
def is_brand_blog (url : String) (brand_tokens : List String) (title : Option String) : Bool :=
  let path := get_url_path url
  if brand_tokens.any (fun t => t ≠ "" && strContains path t) then true
  else
    match title with
    | some ti => brand_tokens.any (fun t => t ≠ "" && strContains (pyToLower ti) t)
    | none => false

/-- Priority buckets of `select_urls_to_crawl` (dict keys of
`categorized`). -/
inductive Bucket
  | homepage
  | about
  | faq
  | sitemap
  | product
  | brand_blog
  | blog
  | other
deriving DecidableEq

/-- Bucket contents during categorization. -/
structure Buckets where
  homepage : List String
  about : List String
  faq : List String
  sitemap : List String
  product : List String
  brand_blog : List String
  blog : List String
  other : List String
deriving DecidableEq

def emptyBuckets : Buckets := ⟨[], [], [], [], [], [], [], []⟩

/-- Append a URL to one bucket. -/
def addToBucket (B : Buckets) (b : Bucket) (url : String) : Buckets :=
  match b with
  | .homepage => { B with homepage := B.homepage ++ [url] }
  | .about => { B with about := B.about ++ [url] }
  | .faq => { B with faq := B.faq ++ [url] }
  | .sitemap => { B with sitemap := B.sitemap ++ [url] }
  | .product => { B with product := B.product ++ [url] }
  | .brand_blog => { B with brand_blog := B.brand_blog ++ [url] }
  | .blog => { B with blog := B.blog ++ [url] }
  | .other => { B with other := B.other ++ [url] }

/-- Result of the category loop for one URL: dropped (bare blog index),
placed in a bucket, or not placed by any pattern. -/
inductive Placement
  | dropped
  | placed (b : Bucket)
  | unplaced

/-- Category loop of `select_urls_to_crawl`: first matching category wins;
a blog match drops bare blog index paths and promotes brand blogs. -/
def loop_classify (tokens_for_url : List String) (path url : String) :
    List (Bucket × List String) → Placement
  | [] => .unplaced
  | (cat, pats) :: rest =>
    if matches_priority_pattern url pats then
      if cat = Bucket.blog then
        if rstripSlash path = "/blog" ∨ rstripSlash path = "blog" then .dropped
        else if tokens_for_url ≠ [] ∧ is_brand_blog url tokens_for_url none then
          .placed .brand_blog
        else .placed .blog
      else .placed cat
    else loop_classify tokens_for_url path url rest

/-- Classification of one (already stripped, nonempty) URL: the brand-blog
fast path, then the category loop, then the second-chance brand-blog
check, then `other`; `none` means the URL is dropped entirely. -/
def categorize_url (brand_tokens : List String)
    (patterns : List (Bucket × List String)) (url : String) : Option Bucket :=
  let path := get_url_path url
  let tokens_for_url := if brand_tokens ≠ [] then brand_tokens
    else brand_tokens_from_domain url
  if tokens_for_url ≠ [] ∧ strContains path "/blog" ∧
      is_brand_blog url tokens_for_url none then
    some .brand_blog
  else
    match loop_classify tokens_for_url path url patterns with
    | .placed b => some b
    | .dropped => none
    | .unplaced =>
      if brand_tokens ≠ [] ∧
          patterns.any (fun cp => cp.1 = Bucket.blog &&
            cp.2.any (fun bp => strContains path bp)) ∧
          is_brand_blog url brand_tokens none then
        some .brand_blog
      else some .other

/-- URL loop of `select_urls_to_crawl`: strip, skip empties, classify and
append to the matching bucket. -/
def categorize (brand_tokens : List String)
    (patterns : List (Bucket × List String)) : List String → Buckets → Buckets
  | [], B => B
  | u :: us, B =>
    let u' := pyStrip u
    if u' = "" then categorize brand_tokens patterns us B
    else
      match categorize_url brand_tokens patterns u' with
      | some b => categorize brand_tokens patterns us (addToBucket B b u')
      | none => categorize brand_tokens patterns us B

/-- Lexicographic comparison on code points (Python string order). -/
def charListLe : List Char → List Char → Bool
  | [], _ => true
  | _ :: _, [] => false
  | x :: xs, y :: ys =>
    if x < y then true
    else if y < x then false
    else charListLe xs ys

def pyStrLe (a b : String) : Bool := charListLe a.toList b.toList

/-- Stable insertion into a sorted list. -/
def insertSorted (x : String) : List String → List String
  | [] => [x]
  | y :: ys => if pyStrLe x y then x :: y :: ys else y :: insertSorted x ys

/-- Python `sorted` on strings. -/
def sortStr (l : List String) : List String := l.foldr insertSorted []

/-- Contents of one bucket. -/
def bucketList (B : Buckets) : Bucket → List String
  | .homepage => B.homepage
  | .about => B.about
  | .faq => B.faq
  | .sitemap => B.sitemap
  | .product => B.product
  | .brand_blog => B.brand_blog
  | .blog => B.blog
  | .other => B.other

/-- The fixed `priority_order` list of `select_urls_to_crawl`. -/
def priority_order : List Bucket :=
  [.homepage, .about, .faq, .product, .brand_blog, .sitemap, .blog, .other]

/-- Final assembly loop of `select_urls_to_crawl`: walk the priority
order, stop when the target is reached, and extend with each sorted
bucket truncated to the remaining budget. -/
def assemble (B : Buckets) (maxU : Nat) : List Bucket → List String → List String
  | [], sel => sel
  | c :: cs, sel =>
    if maxU ≤ sel.length then sel
    else assemble B maxU cs (sel ++ (sortStr (bucketList B c)).take (maxU - sel.length))

/-- Brand tokens derived from the optional homepage argument of
`select_urls_to_crawl` (Python truthiness: None and the empty string give
no tokens). -/
def homepage_brand_tokens (homepage_url : Option String) : List String :=
  match homepage_url with
  | some h => if h = "" then [] else brand_tokens_from_domain h
  | none => []

/-- Model of `select_urls_to_crawl`. -/
def select_urls_to_crawl (urls : List String) (max_urls : Nat)
    (homepage_url : Option String)
    (priority_patterns : List (Bucket × List String)) : List String :=
  if urls.isEmpty then []
  else if priority_patterns.isEmpty then (sortStr urls).take max_urls
  else
    let B := categorize (homepage_brand_tokens homepage_url) priority_patterns urls
      emptyBuckets
    (assemble B max_urls priority_order []).take max_urls

/-- Model of query_universe/config.py `PRIORITY_PAGE_PATTERNS`. -/
def PRIORITY_PAGE_PATTERNS : List (Bucket × List String) :=
  [(.homepage, ["/", ""]),
   (.about, ["/about", "/about-us", "/about_us", "/aboutus", "/company",
     "/who-we-are", "/our-story"]),
   (.faq, ["/faq", "/faqs", "/frequently-asked-questions", "/help", "/support"]),
   (.sitemap, ["/sitemap.xml", "/sitemap", "/site-map", "/sitemap.html"]),
   (.product, ["/products", "/product", "/services", "/service", "/solutions",
     "/offerings", "/pricing"]),
   (.blog, ["/blog", "/blogs", "/news", "/articles", "/insights", "/resources",
     "/stories", "/case-study"])]

/-- Spec-side definition for the refinement claim about
`select_urls_to_crawl` bucket assembly, following the spec wording:
concatenate the buckets in the fixed priority order homepage, about, faq,
product, brandBlog, sitemap, blog, other, each sorted lexicographically,
and truncate the total at the requested count. -/
def select_spec (B : Buckets) (maxCount : Nat) : List String :=
  (sortStr B.homepage ++ sortStr B.about ++ sortStr B.faq ++ sortStr B.product ++
   sortStr B.brand_blog ++ sortStr B.sitemap ++ sortStr B.blog ++
   sortStr B.other).take maxCount

/-! ### Basic lemmas about batching -/

theorem chunksFuel_congr (b : Nat) (hb : 0 < b) :
    ∀ (fuel₁ fuel₂ : Nat) (l : List String), l.length ≤ fuel₁ → l.length ≤ fuel₂ →
      chunksFuel fuel₁ b l = chunksFuel fuel₂ b l := by
  intro fuel₁
  induction fuel₁ with
  | zero =>
    intro fuel₂ l h₁ _
    have hl : l = [] := List.length_eq_zero.mp (Nat.le_zero.mp h₁)
    subst hl
    cases fuel₂ <;> rfl
  | succ n ih =>
    intro fuel₂ l h₁ h₂
    cases l with
    | nil => cases fuel₂ <;> rfl
    | cons x xs =>
      cases fuel₂ with
      | zero => simp at h₂
      | succ m =>
        simp only [chunksFuel]
        congr 1
        apply ih
        · simp only [List.length_drop, List.length_cons] at *
          omega
        · simp only [List.length_drop, List.length_cons] at *
          omega

theorem chunks_cons (b : Nat) (hb : 0 < b) (x : String) (xs : List String) :
    chunks b (x :: xs) = (x :: xs).take b :: chunks b ((x :: xs).drop b) := by
  have hbne : b ≠ 0 := Nat.pos_iff_ne_zero.mp hb
  simp only [chunks, hbne, if_false]
  simp only [List.length_cons, chunksFuel]
  congr 1
  apply chunksFuel_congr b hb
  · simp only [List.length_drop, List.length_cons]; omega
  · exact le_rfl

theorem chunks_nil (b : Nat) : chunks b [] = [] := by
  cases b <;> rfl

theorem chunks_join (b : Nat) (hb : 0 < b) :
    ∀ (n : Nat) (l : List String), l.length ≤ n → (chunks b l).flatten = l := by
  intro n
  induction n with
  | zero =>
    intro l hl
    have : l = [] := List.length_eq_zero.mp (Nat.le_zero.mp hl)
    subst this
    simp [chunks_nil]
  | succ m ih =>
    intro l hl
    cases l with
    | nil => simp [chunks_nil]
    | cons x xs =>
      rw [chunks_cons b hb]
      simp only [List.flatten_cons]
      rw [ih]
      · exact List.take_append_drop b (x :: xs)
      · simp only [List.length_drop, List.length_cons] at *
        omega

theorem chunks_singleton (b : Nat) (hb : 0 < b) (x : String) :
    chunks b [x] = [[x]] := by
  rw [chunks_cons b hb]
  cases b with
  | zero => exact absurd hb (by omega)
  | succ m => simp [chunks_nil]

/-! ### Lemmas about per-URL outcomes -/

theorem crawl_url_url (net : Net) (join : Join) (domain url : String) :
    (crawl_url net join domain url).url = url := by
  unfold crawl_url
  cases net url with
  | http s hrefs =>
    by_cases h : s ≠ 200 <;> simp [h]
  | timeout => rfl
  | exc m => rfl
  | crash m => rfl

theorem crawl_url_task_url (net : Net) (join : Join) (domain url : String) :
    (crawl_url_task net join domain url).url = url := by
  unfold crawl_url_task
  cases h : net url with
  | crash m => rfl
  | http s hrefs => rw [crawl_url_url]
  | timeout => rw [crawl_url_url]
  | exc m => rw [crawl_url_url]

theorem process_batch_urls (net : Net) (join : Join) (domain : String) :
    ∀ (b : List String), (process_batch net join domain b).map (·.url) = b := by
  intro b
  induction b with
  | nil => rfl
  | cons x xs ih =>
    simp only [process_batch, List.map_cons] at *
    rw [crawl_url_task_url, ih]

/-! ### Lemmas about `process_results` -/

theorem collect_new_urls_mem (succ fail : Finset String) :
    ∀ (ls acc : List String) (u : String), u ∈ collect_new_urls succ fail ls acc →
      u ∈ acc ∨ u ∈ ls := by
  intro ls
  induction ls with
  | nil =>
    intro acc u hu
    exact Or.inl hu
  | cons x xs ih =>
    intro acc u hu
    simp only [collect_new_urls] at hu
    by_cases hx : x ∈ succ ∨ x ∈ fail ∨ x ∈ acc
    · rw [if_pos hx] at hu
      rcases ih acc u hu with h | h
      · exact Or.inl h
      · exact Or.inr (List.mem_cons_of_mem x h)
    · rw [if_neg hx] at hu
      rcases ih (acc ++ [x]) u hu with h | h
      · rcases List.mem_append.mp h with h' | h'
        · exact Or.inl h'
        · exact Or.inr (List.mem_cons.mpr (Or.inl (List.mem_singleton.mp h')))
      · exact Or.inr (List.mem_cons_of_mem x h)

theorem process_results_succ_mono :
    ∀ (rs : List FetchOutcome) (s f : Finset String) (acc : List String),
      s ⊆ (process_results rs s f acc).1 := by
  intro rs
  induction rs with
  | nil => intro s f acc; exact Finset.Subset.refl s
  | cons r rs ih =>
    intro s f acc
    cases hst : r.status with
    | success =>
      simp only [process_results, hst]
      exact fun x hx => ih _ _ _ (Finset.mem_insert_of_mem hx)
    | failed => simp only [process_results, hst]; exact ih _ _ _
    | error => simp only [process_results, hst]; exact ih _ _ _

theorem process_results_fail_mono :
    ∀ (rs : List FetchOutcome) (s f : Finset String) (acc : List String),
      f ⊆ (process_results rs s f acc).2.1 := by
  intro rs
  induction rs with
  | nil => intro s f acc; exact Finset.Subset.refl f
  | cons r rs ih =>
    intro s f acc
    cases hst : r.status with
    | success => simp only [process_results, hst]; exact ih _ _ _
    | failed =>
      simp only [process_results, hst]
      exact fun x hx => ih _ _ _ (Finset.mem_insert_of_mem hx)
    | error =>
      simp only [process_results, hst]
      exact fun x hx => ih _ _ _ (Finset.mem_insert_of_mem hx)

theorem process_results_succ_sub :
    ∀ (rs : List FetchOutcome) (s f : Finset String) (acc : List String) (x : String),
      x ∈ (process_results rs s f acc).1 → x ∈ s ∨ ∃ r ∈ rs, r.url = x := by
  intro rs
  induction rs with
  | nil =>
    intro s f acc x hx
    exact Or.inl hx
  | cons r rs ih =>
    intro s f acc x hx
    cases hst : r.status with
    | success =>
      simp only [process_results, hst] at hx
      rcases ih _ _ _ x hx with h | h
      · rcases Finset.mem_insert.mp h with h' | h'
        · exact Or.inr ⟨r, List.mem_cons_self r rs, h'.symm⟩
        · exact Or.inl h'
      · rcases h with ⟨o, ho, hox⟩
        exact Or.inr ⟨o, List.mem_cons_of_mem r ho, hox⟩
    | failed =>
      simp only [process_results, hst] at hx
      rcases ih _ _ _ x hx with h | h
      · exact Or.inl h
      · rcases h with ⟨o, ho, hox⟩
        exact Or.inr ⟨o, List.mem_cons_of_mem r ho, hox⟩
    | error =>
      simp only [process_results, hst] at hx
      rcases ih _ _ _ x hx with h | h
      · exact Or.inl h
      · rcases h with ⟨o, ho, hox⟩
        exact Or.inr ⟨o, List.mem_cons_of_mem r ho, hox⟩

theorem process_results_fail_sub :
    ∀ (rs : List FetchOutcome) (s f : Finset String) (acc : List String) (x : String),
      x ∈ (process_results rs s f acc).2.1 → x ∈ f ∨ ∃ r ∈ rs, r.url = x := by
  intro rs
  induction rs with
  | nil =>
    intro s f acc x hx
    exact Or.inl hx
  | cons r rs ih =>
    intro s f acc x hx
    cases hst : r.status with
    | success =>
      simp only [process_results, hst] at hx
      rcases ih _ _ _ x hx with h | h
      · exact Or.inl h
      · rcases h with ⟨o, ho, hox⟩
        exact Or.inr ⟨o, List.mem_cons_of_mem r ho, hox⟩
    | failed =>
      simp only [process_results, hst] at hx
      rcases ih _ _ _ x hx with h | h
      · rcases Finset.mem_insert.mp h with h' | h'
        · exact Or.inr ⟨r, List.mem_cons_self r rs, h'.symm⟩
        · exact Or.inl h'
      · rcases h with ⟨o, ho, hox⟩
        exact Or.inr ⟨o, List.mem_cons_of_mem r ho, hox⟩
    | error =>
      simp only [process_results, hst] at hx
      rcases ih _ _ _ x hx with h | h
      · rcases Finset.mem_insert.mp h with h' | h'
        · exact Or.inr ⟨r, List.mem_cons_self r rs, h'.symm⟩
        · exact Or.inl h'
      · rcases h with ⟨o, ho, hox⟩
        exact Or.inr ⟨o, List.mem_cons_of_mem r ho, hox⟩

theorem process_results_card :
    ∀ (rs : List FetchOutcome) (s f : Finset String) (acc : List String),
      (process_results rs s f acc).1.card ≤ s.card + rs.length := by
  intro rs
  induction rs with
  | nil => intro s f acc; simp [process_results]
  | cons r rs ih =>
    intro s f acc
    cases hst : r.status with
    | success =>
      simp only [process_results, hst, List.length_cons]
      calc (process_results rs (insert r.url s) f _).1.card
          ≤ (insert r.url s).card + rs.length := ih _ _ _
        _ ≤ s.card + 1 + rs.length := by
            have := Finset.card_insert_le r.url s
            omega
        _ = s.card + (rs.length + 1) := by omega
    | failed =>
      simp only [process_results, hst, List.length_cons]
      have := ih s (insert r.url f) acc
      omega
    | error =>
      simp only [process_results, hst, List.length_cons]
      have := ih s (insert r.url f) acc
      omega

theorem process_results_fail_of_not_success :
    ∀ (rs : List FetchOutcome) (s f : Finset String) (acc : List String) (r : FetchOutcome),
      r ∈ rs → r.status ≠ FetchStatus.success → r.url ∈ (process_results rs s f acc).2.1 := by
  intro rs
  induction rs with
  | nil =>
    intro s f acc r hr _
    exact absurd hr (List.not_mem_nil r)
  | cons o os ih =>
    intro s f acc r hr hrs
    rcases List.mem_cons.mp hr with h | h
    · subst h
      cases hst : r.status with
      | success => exact absurd hst hrs
      | failed =>
        simp only [process_results, hst]
        exact process_results_fail_mono _ _ _ _ (Finset.mem_insert_self r.url f)
      | error =>
        simp only [process_results, hst]
        exact process_results_fail_mono _ _ _ _ (Finset.mem_insert_self r.url f)
    · cases hst : o.status with
      | success => simp only [process_results, hst]; exact ih _ _ _ r h hrs
      | failed => simp only [process_results, hst]; exact ih _ _ _ r h hrs
      | error => simp only [process_results, hst]; exact ih _ _ _ r h hrs

theorem process_results_collected :
    ∀ (rs : List FetchOutcome) (s f : Finset String) (acc : List String) (u : String),
      u ∈ (process_results rs s f acc).2.2 →
        u ∈ acc ∨ ∃ r ∈ rs, r.status = FetchStatus.success ∧ u ∈ r.new_urls := by
  intro rs
  induction rs with
  | nil =>
    intro s f acc u hu
    exact Or.inl hu
  | cons r rs ih =>
    intro s f acc u hu
    cases hst : r.status with
    | success =>
      simp only [process_results, hst] at hu
      rcases ih _ _ _ u hu with h | h
      · rcases collect_new_urls_mem _ _ _ _ u h with h' | h'
        · exact Or.inl h'
        · exact Or.inr ⟨r, List.mem_cons_self r rs, hst, h'⟩
      · rcases h with ⟨o, ho, hos, hou⟩
        exact Or.inr ⟨o, List.mem_cons_of_mem r ho, hos, hou⟩
    | failed =>
      simp only [process_results, hst] at hu
      rcases ih _ _ _ u hu with h | h
      · exact Or.inl h
      · rcases h with ⟨o, ho, hos, hou⟩
        exact Or.inr ⟨o, List.mem_cons_of_mem r ho, hos, hou⟩
    | error =>
      simp only [process_results, hst] at hu
      rcases ih _ _ _ u hu with h | h
      · exact Or.inl h
      · rcases h with ⟨o, ho, hos, hou⟩
        exact Or.inr ⟨o, List.mem_cons_of_mem r ho, hos, hou⟩

theorem process_results_inter (H : Finset String) :
    ∀ (rs : List FetchOutcome) (s f : Finset String) (acc : List String),
      (rs.map (·.url)).Nodup →
      (∀ r ∈ rs, (r.url ∉ s ∨ r.url ∈ H) ∧ (r.url ∉ f ∨ r.url ∈ H)) →
      s ∩ f ⊆ H →
      (process_results rs s f acc).1 ∩ (process_results rs s f acc).2.1 ⊆ H := by
  intro rs
  induction rs with
  | nil =>
    intro s f acc _ _ hsf
    exact hsf
  | cons r rs ih =>
    intro s f acc hnd hcond hsf
    simp only [List.map_cons, List.nodup_cons] at hnd
    have hr := hcond r (List.mem_cons_self r rs)
    cases hst : r.status with
    | success =>
      simp only [process_results, hst]
      apply ih
      · exact hnd.2
      · intro o ho
        have hco := hcond o (List.mem_cons_of_mem r ho)
        constructor
        · rcases hco.1 with h | h
          · left
            intro hmem
            rcases Finset.mem_insert.mp hmem with h' | h'
            · exact hnd.1 (h' ▸ List.mem_map_of_mem (·.url) ho)
            · exact h h'
          · exact Or.inr h
        · exact hco.2
      · intro x hx
        rcases Finset.mem_inter.mp hx with ⟨hxs, hxf⟩
        rcases Finset.mem_insert.mp hxs with h' | h'
        · subst h'
          rcases hr.2 with h | h
          · exact absurd hxf h
          · exact h
        · exact hsf (Finset.mem_inter.mpr ⟨h', hxf⟩)
    | failed =>
      simp only [process_results, hst]
      apply ih
      · exact hnd.2
      · intro o ho
        have hco := hcond o (List.mem_cons_of_mem r ho)
        constructor
        · exact hco.1
        · rcases hco.2 with h | h
          · left
            intro hmem
            rcases Finset.mem_insert.mp hmem with h' | h'
            · exact hnd.1 (h' ▸ List.mem_map_of_mem (·.url) ho)
            · exact h h'
          · exact Or.inr h
      · intro x hx
        rcases Finset.mem_inter.mp hx with ⟨hxs, hxf⟩
        rcases Finset.mem_insert.mp hxf with h' | h'
        · subst h'
          rcases hr.1 with h | h
          · exact absurd hxs h
          · exact h
        · exact hsf (Finset.mem_inter.mpr ⟨hxs, h'⟩)
    | error =>
      simp only [process_results, hst]
      apply ih
      · exact hnd.2
      · intro o ho
        have hco := hcond o (List.mem_cons_of_mem r ho)
        constructor
        · exact hco.1
        · rcases hco.2 with h | h
          · left
            intro hmem
            rcases Finset.mem_insert.mp hmem with h' | h'
            · exact hnd.1 (h' ▸ List.mem_map_of_mem (·.url) ho)
            · exact h h'
          · exact Or.inr h
      · intro x hx
        rcases Finset.mem_inter.mp hx with ⟨hxs, hxf⟩
        rcases Finset.mem_insert.mp hxf with h' | h'
        · subst h'
          rcases hr.1 with h | h
          · exact absurd hxs h
          · exact h
        · exact hsf (Finset.mem_inter.mpr ⟨hxs, h'⟩)

/-! ### Lemmas about `process_batches` and `process_depth` -/

theorem mem_process_batch_url (net : Net) (join : Join) (domain : String)
    (b : List String) (r : FetchOutcome) (hr : r ∈ process_batch net join domain b) :
    r.url ∈ b := by
  rcases List.mem_map.mp hr with ⟨u, hu, hru⟩
  have : r.url = u := by rw [← hru, crawl_url_task_url]
  exact this ▸ hu

theorem process_batches_keeps (net : Net) (join : Join) (domain : String) (maxUrls : Nat) :
    ∀ (bs : List (List String)) (st : CrawlState) (next : List String),
      (process_batches net join domain maxUrls bs st next).1.boundaries = st.boundaries ∧
      (process_batches net join domain maxUrls bs st next).1.maxDepthReached =
        st.maxDepthReached := by
  intro bs
  induction bs with
  | nil => intro st next; exact ⟨rfl, rfl⟩
  | cons b bs ih =>
    intro st next
    simp only [process_batches]
    by_cases h : maxUrls ≤ (process_results (process_batch net join domain b)
        st.successful st.failed []).1.card
    · rw [if_pos h]
      exact ⟨rfl, rfl⟩
    · rw [if_neg h]
      exact ih _ _

theorem process_batches_succ_mono (net : Net) (join : Join) (domain : String) (maxUrls : Nat) :
    ∀ (bs : List (List String)) (st : CrawlState) (next : List String),
      st.successful ⊆ (process_batches net join domain maxUrls bs st next).1.successful := by
  intro bs
  induction bs with
  | nil => intro st next; exact Finset.Subset.refl _
  | cons b bs ih =>
    intro st next
    simp only [process_batches]
    by_cases h : maxUrls ≤ (process_results (process_batch net join domain b)
        st.successful st.failed []).1.card
    · rw [if_pos h]
      exact process_results_succ_mono _ _ _ _
    · rw [if_neg h]
      exact fun x hx => ih _ _ (process_results_succ_mono _ _ _ _ hx)

theorem process_batches_fail_mono (net : Net) (join : Join) (domain : String) (maxUrls : Nat) :
    ∀ (bs : List (List String)) (st : CrawlState) (next : List String),
      st.failed ⊆ (process_batches net join domain maxUrls bs st next).1.failed := by
  intro bs
  induction bs with
  | nil => intro st next; exact Finset.Subset.refl _
  | cons b bs ih =>
    intro st next
    simp only [process_batches]
    by_cases h : maxUrls ≤ (process_results (process_batch net join domain b)
        st.successful st.failed []).1.card
    · rw [if_pos h]
      exact process_results_fail_mono _ _ _ _
    · rw [if_neg h]
      exact fun x hx => ih _ _ (process_results_fail_mono _ _ _ _ hx)

theorem process_batches_card (net : Net) (join : Join) (domain : String) (maxUrls : Nat) :
    ∀ (bs : List (List String)) (st : CrawlState) (next : List String),
      (process_batches net join domain maxUrls bs st next).1.successful.card ≤
        st.successful.card + bs.flatten.length := by
  intro bs
  induction bs with
  | nil => intro st next; simp [process_batches]
  | cons b bs ih =>
    intro st next
    simp only [process_batches, List.flatten_cons, List.length_append]
    have hb : (process_results (process_batch net join domain b)
        st.successful st.failed []).1.card ≤ st.successful.card + b.length := by
      have := process_results_card (process_batch net join domain b)
        st.successful st.failed []
      simpa [process_batch] using this
    by_cases h : maxUrls ≤ (process_results (process_batch net join domain b)
        st.successful st.failed []).1.card
    · rw [if_pos h]
      simp only []
      omega
    · rw [if_neg h]
      have := ih ({ st with
        successful := (process_results (process_batch net join domain b)
          st.successful st.failed []).1,
        failed := (process_results (process_batch net join domain b)
          st.successful st.failed []).2.1,
        fetched := st.fetched ++ b }) (next ++ (process_results (process_batch net join domain b)
          st.successful st.failed []).2.2)
      simp only [] at this
      omega

theorem process_batches_succ_sub (net : Net) (join : Join) (domain : String) (maxUrls : Nat) :
    ∀ (bs : List (List String)) (st : CrawlState) (next : List String) (x : String),
      x ∈ (process_batches net join domain maxUrls bs st next).1.successful →
        x ∈ st.successful ∨ x ∈ bs.flatten := by
  intro bs
  induction bs with
  | nil =>
    intro st next x hx
    exact Or.inl hx
  | cons b bs ih =>
    intro st next x hx
    simp only [process_batches] at hx
    by_cases h : maxUrls ≤ (process_results (process_batch net join domain b)
        st.successful st.failed []).1.card
    · rw [if_pos h] at hx
      simp only [] at hx
      rcases process_results_succ_sub _ _ _ _ x hx with h' | h'
      · exact Or.inl h'
      · rcases h' with ⟨r, hr, hrx⟩
        exact Or.inr (by
          simp only [List.flatten_cons, List.mem_append]
          exact Or.inl (hrx ▸ mem_process_batch_url net join domain b r hr))
    · rw [if_neg h] at hx
      rcases ih _ _ x hx with h' | h'
      · simp only [] at h'
        rcases process_results_succ_sub _ _ _ _ x h' with h'' | h''
        · exact Or.inl h''
        · rcases h'' with ⟨r, hr, hrx⟩
          exact Or.inr (by
            simp only [List.flatten_cons, List.mem_append]
            exact Or.inl (hrx ▸ mem_process_batch_url net join domain b r hr))
      · exact Or.inr (by
          simp only [List.flatten_cons, List.mem_append]
          exact Or.inr h')

theorem process_batches_fail_sub (net : Net) (join : Join) (domain : String) (maxUrls : Nat) :
    ∀ (bs : List (List String)) (st : CrawlState) (next : List String) (x : String),
      x ∈ (process_batches net join domain maxUrls bs st next).1.failed →
        x ∈ st.failed ∨ x ∈ bs.flatten := by
  intro bs
  induction bs with
  | nil =>
    intro st next x hx
    exact Or.inl hx
  | cons b bs ih =>
    intro st next x hx
    simp only [process_batches] at hx
    by_cases h : maxUrls ≤ (process_results (process_batch net join domain b)
        st.successful st.failed []).1.card
    · rw [if_pos h] at hx
      simp only [] at hx
      rcases process_results_fail_sub _ _ _ _ x hx with h' | h'
      · exact Or.inl h'
      · rcases h' with ⟨r, hr, hrx⟩
        exact Or.inr (by
          simp only [List.flatten_cons, List.mem_append]
          exact Or.inl (hrx ▸ mem_process_batch_url net join domain b r hr))
    · rw [if_neg h] at hx
      rcases ih _ _ x hx with h' | h'
      · simp only [] at h'
        rcases process_results_fail_sub _ _ _ _ x h' with h'' | h''
        · exact Or.inl h''
        · rcases h'' with ⟨r, hr, hrx⟩
          exact Or.inr (by
            simp only [List.flatten_cons, List.mem_append]
            exact Or.inl (hrx ▸ mem_process_batch_url net join domain b r hr))
      · exact Or.inr (by
          simp only [List.flatten_cons, List.mem_append]
          exact Or.inr h')

theorem process_batches_inter (net : Net) (join : Join) (domain : String) (maxUrls : Nat)
    (H : Finset String) :
    ∀ (bs : List (List String)) (st : CrawlState) (next : List String),
      bs.flatten.Nodup →
      (∀ u ∈ bs.flatten, (u ∉ st.successful ∨ u ∈ H) ∧ (u ∉ st.failed ∨ u ∈ H)) →
      st.successful ∩ st.failed ⊆ H →
      (process_batches net join domain maxUrls bs st next).1.successful ∩
        (process_batches net join domain maxUrls bs st next).1.failed ⊆ H := by
  intro bs
  induction bs with
  | nil =>
    intro st next _ _ hsf
    exact hsf
  | cons b bs ih =>
    intro st next hnd hcond hsf
    simp only [List.flatten_cons] at hnd hcond
    rw [List.nodup_append] at hnd
    have hbatch : (process_results (process_batch net join domain b)
          st.successful st.failed []).1 ∩
        (process_results (process_batch net join domain b)
          st.successful st.failed []).2.1 ⊆ H := by
      apply process_results_inter H
      · rw [process_batch_urls]
        exact hnd.1
      · intro r hr
        exact hcond r.url (List.mem_append.mpr
          (Or.inl (mem_process_batch_url net join domain b r hr)))
      · exact hsf
    simp only [process_batches]
    by_cases h : maxUrls ≤ (process_results (process_batch net join domain b)
        st.successful st.failed []).1.card
    · rw [if_pos h]
      exact hbatch
    · rw [if_neg h]
      apply ih
      · exact hnd.2.1
      · intro u hu
        have hub : u ∉ b := fun hub => hnd.2.2 hub hu
        have hc := hcond u (List.mem_append.mpr (Or.inr hu))
        constructor
        · rcases hc.1 with h' | h'
          · left
            intro hmem
            rcases process_results_succ_sub _ _ _ _ u hmem with h'' | h''
            · exact h' h''
            · rcases h'' with ⟨r, hr, hru⟩
              exact hub (hru ▸ mem_process_batch_url net join domain b r hr)
          · exact Or.inr h'
        · rcases hc.2 with h' | h'
          · left
            intro hmem
            rcases process_results_fail_sub _ _ _ _ u hmem with h'' | h''
            · exact h' h''
            · rcases h'' with ⟨r, hr, hru⟩
              exact hub (hru ▸ mem_process_batch_url net join domain b r hr)
          · exact Or.inr h'
      · exact hbatch

/-! ### Lemmas about the deduplicator -/

theorem unique_pass_sub (p : Finset String) :
    ∀ (l acc : List String) (u : String), u ∈ unique_pass p l acc →
      u ∈ acc ∨ (u ∈ l ∧ (pyUrlparse u).fragment = "" ∧ u ∉ p) := by
  intro l
  induction l with
  | nil =>
    intro acc u hu
    exact Or.inl hu
  | cons x xs ih =>
    intro acc u hu
    simp only [unique_pass] at hu
    by_cases hfrag : (pyUrlparse x).fragment ≠ ""
    · rw [if_pos hfrag] at hu
      rcases ih acc u hu with h | h
      · exact Or.inl h
      · exact Or.inr ⟨List.mem_cons_of_mem x h.1, h.2⟩
    · rw [if_neg hfrag] at hu
      by_cases hseen : x ∈ p ∨ x ∈ acc
      · rw [if_pos hseen] at hu
        rcases ih acc u hu with h | h
        · exact Or.inl h
        · exact Or.inr ⟨List.mem_cons_of_mem x h.1, h.2⟩
      · rw [if_neg hseen] at hu
        rcases ih (acc ++ [x]) u hu with h | h
        · rcases List.mem_append.mp h with h' | h'
          · exact Or.inl h'
          · have hux : u = x := List.mem_singleton.mp h'
            subst hux
            push_neg at hfrag hseen
            exact Or.inr ⟨List.mem_cons_self u xs, hfrag, hseen.1⟩
        · exact Or.inr ⟨List.mem_cons_of_mem x h.1, h.2⟩

theorem unique_pass_nodup (p : Finset String) :
    ∀ (l acc : List String), acc.Nodup → (unique_pass p l acc).Nodup := by
  intro l
  induction l with
  | nil =>
    intro acc h
    exact h
  | cons x xs ih =>
    intro acc hacc
    simp only [unique_pass]
    by_cases hfrag : (pyUrlparse x).fragment ≠ ""
    · rw [if_pos hfrag]
      exact ih acc hacc
    · rw [if_neg hfrag]
      by_cases hseen : x ∈ p ∨ x ∈ acc
      · rw [if_pos hseen]
        exact ih acc hacc
      · rw [if_neg hseen]
        apply ih
        rw [List.nodup_append]
        push_neg at hseen
        exact ⟨hacc, List.nodup_singleton x,
          fun a ha hax => hseen.2 ((List.mem_singleton.mp hax) ▸ ha)⟩

theorem unique_pass_length (p : Finset String) :
    ∀ (l acc : List String), (unique_pass p l acc).length ≤ acc.length + l.length := by
  intro l
  induction l with
  | nil =>
    intro acc
    simp [unique_pass]
  | cons x xs ih =>
    intro acc
    simp only [unique_pass, List.length_cons]
    by_cases hfrag : (pyUrlparse x).fragment ≠ ""
    · rw [if_pos hfrag]
      have := ih acc
      omega
    · rw [if_neg hfrag]
      by_cases hseen : x ∈ p ∨ x ∈ acc
      · rw [if_pos hseen]
        have := ih acc
        omega
      · rw [if_neg hseen]
        have := ih (acc ++ [x])
        simp only [List.length_append, List.length_singleton] at this
        omega

theorem unique_pass_of_clean (p : Finset String) :
    ∀ (l acc : List String), l.Nodup →
      (∀ u ∈ l, (pyUrlparse u).fragment = "" ∧ u ∉ p ∧ u ∉ acc) →
      unique_pass p l acc = acc ++ l := by
  intro l
  induction l with
  | nil =>
    intro acc _ _
    simp [unique_pass]
  | cons x xs ih =>
    intro acc hnd hcl
    have hx := hcl x (List.mem_cons_self x xs)
    simp only [unique_pass]
    rw [if_neg (by simp [hx.1]), if_neg (by
      push_neg
      exact ⟨hx.2.1, hx.2.2⟩)]
    rw [ih (acc ++ [x]) (List.Nodup.of_cons hnd)]
    · simp
    · intro u hu
      have hc := hcl u (List.mem_cons_of_mem x hu)
      refine ⟨hc.1, hc.2.1, ?_⟩
      rw [List.mem_append]
      push_neg
      refine ⟨hc.2.2, ?_⟩
      intro hux
      have : u = x := List.mem_singleton.mp hux
      subst this
      exact (List.nodup_cons.mp hnd).1 hu

/-- First group with the given key (Python dict lookup on the
insertion-ordered association list). -/
def findG (k : String) : List (String × List String) → List String
  | [] => []
  | g :: gs => if g.1 = k then g.2 else findG k gs

theorem add_to_groups_findG :
    ∀ (gs : List (String × List String)) (k' u k : String),
      findG k (add_to_groups gs k' u) =
        if k = k' then findG k gs ++ [u] else findG k gs := by
  intro gs
  induction gs with
  | nil =>
    intro k' u k
    by_cases h : k = k'
    · subst h
      simp [add_to_groups, findG]
    · simp [add_to_groups, findG, h, (show ¬(k' = k) from fun hh => h hh.symm)]
  | cons g gs ih =>
    intro k' u k
    by_cases hg : g.1 = k'
    · rw [show add_to_groups (g :: gs) k' u = (g.1, g.2 ++ [u]) :: gs from by
        simp [add_to_groups, hg]]
      by_cases hk : k = k'
      · subst hk
        simp [findG, hg]
      · have hgk : ¬(g.1 = k) := by
          rw [hg]
          exact fun hh => hk hh.symm
        simp [findG, hgk, hk]
    · rw [show add_to_groups (g :: gs) k' u = g :: add_to_groups gs k' u from by
        simp [add_to_groups, hg]]
      by_cases hgk : g.1 = k
      · by_cases hk : k = k'
        · exact absurd (hk ▸ hgk) hg
        · simp [findG, hgk, hk]
      · simp only [findG, if_neg hgk]
        exact ih k' u k

theorem add_to_groups_keys :
    ∀ (gs : List (String × List String)) (k u : String),
      (add_to_groups gs k u).map Prod.fst =
        if k ∈ gs.map Prod.fst then gs.map Prod.fst else gs.map Prod.fst ++ [k] := by
  intro gs
  induction gs with
  | nil =>
    intro k u
    simp [add_to_groups]
  | cons g gs ih =>
    intro k u
    by_cases hg : g.1 = k
    · rw [show add_to_groups (g :: gs) k u = (g.1, g.2 ++ [u]) :: gs from by
        simp [add_to_groups, hg]]
      rw [if_pos (by
        simp only [List.map_cons, List.mem_cons]
        exact Or.inl hg.symm)]
      simp
    · rw [show add_to_groups (g :: gs) k u = g :: add_to_groups gs k u from by
        simp [add_to_groups, hg]]
      simp only [List.map_cons, ih]
      by_cases hk : k ∈ gs.map Prod.fst
      · rw [if_pos hk, if_pos (by
          simp only [List.mem_cons]
          exact Or.inr hk)]
      · rw [if_neg hk, if_neg (by
          simp only [List.mem_cons]
          push_neg
          exact ⟨fun h => hg h.symm, hk⟩)]
        simp

theorem add_to_groups_fresh :
    ∀ (gs : List (String × List String)) (k u : String),
      k ∉ gs.map Prod.fst → add_to_groups gs k u = gs ++ [(k, [u])] := by
  intro gs
  induction gs with
  | nil =>
    intro k u _
    rfl
  | cons g gs ih =>
    intro k u hk
    simp only [List.map_cons, List.mem_cons] at hk
    push_neg at hk
    have hg : ¬(g.1 = k) := fun h => hk.1 h.symm
    rw [show add_to_groups (g :: gs) k u = g :: add_to_groups gs k u from by
      simp [add_to_groups, hg]]
    rw [ih k u hk.2]
    simp

theorem add_to_groups_length (gs : List (String × List String)) (k u : String) :
    (add_to_groups gs k u).length ≤ gs.length + 1 := by
  induction gs with
  | nil => simp [add_to_groups]
  | cons g gs ih =>
    simp only [add_to_groups]
    by_cases hg : g.1 = k
    · simp [hg]
    · simp only [if_neg hg, List.length_cons]
      omega

theorem build_groups_findG :
    ∀ (l : List String) (gs : List (String × List String)) (k : String),
      findG k (build_groups l gs) =
        findG k gs ++ l.filter (fun u => canonical_key u = k) := by
  intro l
  induction l with
  | nil =>
    intro gs k
    simp [build_groups]
  | cons x xs ih =>
    intro gs k
    simp only [build_groups]
    rw [ih]
    rw [add_to_groups_findG]
    by_cases hk : k = canonical_key x
    · rw [if_pos hk]
      rw [List.filter_cons_of_pos (by simp [hk.symm])]
      simp
    · rw [if_neg hk]
      rw [List.filter_cons_of_neg (by simp; exact fun h => hk h.symm)]

theorem build_groups_keys_nodup :
    ∀ (l : List String) (gs : List (String × List String)),
      (gs.map Prod.fst).Nodup → ((build_groups l gs).map Prod.fst).Nodup := by
  intro l
  induction l with
  | nil =>
    intro gs h
    exact h
  | cons x xs ih =>
    intro gs h
    simp only [build_groups]
    apply ih
    rw [add_to_groups_keys]
    by_cases hk : canonical_key x ∈ gs.map Prod.fst
    · rw [if_pos hk]
      exact h
    · rw [if_neg hk]
      rw [List.nodup_append]
      exact ⟨h, List.nodup_singleton _,
        fun a ha hax => hk ((List.mem_singleton.mp hax) ▸ ha)⟩

theorem build_groups_keys_mem :
    ∀ (l : List String) (gs : List (String × List String)) (k : String),
      k ∈ (build_groups l gs).map Prod.fst ↔
        k ∈ gs.map Prod.fst ∨ ∃ u ∈ l, canonical_key u = k := by
  intro l
  induction l with
  | nil =>
    intro gs k
    simp [build_groups]
  | cons x xs ih =>
    intro gs k
    simp only [build_groups]
    rw [ih]
    rw [add_to_groups_keys]
    by_cases hk : canonical_key x ∈ gs.map Prod.fst
    · rw [if_pos hk]
      constructor
      · rintro (h | h)
        · exact Or.inl h
        · rcases h with ⟨u, hu, huk⟩
          exact Or.inr ⟨u, List.mem_cons_of_mem x hu, huk⟩
      · rintro (h | ⟨u, hu, huk⟩)
        · exact Or.inl h
        · rcases List.mem_cons.mp hu with h' | h'
          · exact Or.inl (by rw [← huk, h']; exact hk)
          · exact Or.inr ⟨u, h', huk⟩
    · rw [if_neg hk]
      simp only [List.mem_append, List.mem_singleton]
      constructor
      · rintro ((h | h) | h)
        · exact Or.inl h
        · exact Or.inr ⟨x, List.mem_cons_self x xs, h.symm⟩
        · rcases h with ⟨u, hu, huk⟩
          exact Or.inr ⟨u, List.mem_cons_of_mem x hu, huk⟩
      · rintro (h | ⟨u, hu, huk⟩)
        · exact Or.inl (Or.inl h)
        · rcases List.mem_cons.mp hu with h' | h'
          · exact Or.inl (Or.inr (by rw [← huk, h']))
          · exact Or.inr ⟨u, h', huk⟩

theorem build_groups_length :
    ∀ (l : List String) (gs : List (String × List String)),
      (build_groups l gs).length ≤ gs.length + l.length := by
  intro l
  induction l with
  | nil =>
    intro gs
    simp [build_groups]
  | cons x xs ih =>
    intro gs
    simp only [build_groups, List.length_cons]
    have h1 := ih (add_to_groups gs (canonical_key x) x)
    have h2 := add_to_groups_length gs (canonical_key x) x
    omega

theorem findG_of_mem :
    ∀ (gs : List (String × List String)), (gs.map Prod.fst).Nodup →
      ∀ g ∈ gs, findG g.1 gs = g.2 := by
  intro gs
  induction gs with
  | nil =>
    intro _ g hg
    exact absurd hg (List.not_mem_nil g)
  | cons g' gs ih =>
    intro hnd g hg
    simp only [List.map_cons, List.nodup_cons] at hnd
    rcases List.mem_cons.mp hg with h | h
    · subst h
      simp [findG]
    · have hne : g'.1 ≠ g.1 := fun he => hnd.1 (he ▸ List.mem_map_of_mem Prod.fst h)
      simp only [findG, if_neg hne]
      exact ih hnd.2 g h

theorem build_groups_group_eq (l : List String) (g : String × List String)
    (hg : g ∈ build_groups l []) :
    g.2 = l.filter (fun u => canonical_key u = g.1) := by
  have hnd : ((build_groups l []).map Prod.fst).Nodup :=
    build_groups_keys_nodup l [] (by simp)
  have := findG_of_mem (build_groups l []) hnd g hg
  rw [build_groups_findG l [] g.1] at this
  simpa [findG] using this.symm

theorem choose_rep_singleton (u : String) : choose_rep [u] = u := by
  simp [choose_rep]

theorem choose_rep_mem (g : List String) (hg : g ≠ []) : choose_rep g ∈ g := by
  unfold choose_rep
  by_cases hlen : g.length = 1
  · rw [if_pos hlen]
    cases g with
    | nil => exact absurd rfl hg
    | cons x xs => exact List.mem_cons_self x xs
  · rw [if_neg hlen]
    cases hf : g.filter (fun u => pyStartsWith u "https://") with
    | cons u rest =>
      exact List.mem_of_mem_filter (hf ▸ List.mem_cons_self u rest)
    | nil =>
      cases hf2 : g.filter (fun u => pyStartsWith u "http://") with
      | cons u rest =>
        exact List.mem_of_mem_filter (hf2 ▸ List.mem_cons_self u rest)
      | nil =>
        cases g with
        | nil => exact absurd rfl hg
        | cons x xs => exact List.mem_cons_self x xs

theorem choose_rep_https (g : List String) (u : String) (rest : List String)
    (hf : g.filter (fun v => pyStartsWith v "https://") = u :: rest) :
    choose_rep g = u := by
  unfold choose_rep
  by_cases hlen : g.length = 1
  · rw [if_pos hlen]
    have hu : u ∈ g := List.mem_of_mem_filter (hf ▸ List.mem_cons_self u rest)
    cases g with
    | nil => simp at hlen
    | cons x xs =>
      simp only [List.length_cons] at hlen
      have hxs : xs = [] := List.length_eq_zero.mp (by omega)
      subst hxs
      simp only [List.headD_cons]
      exact (List.mem_singleton.mp hu).symm
  · rw [if_neg hlen, hf]

theorem choose_rep_http (g : List String) (u : String) (rest : List String)
    (hno : g.filter (fun v => pyStartsWith v "https://") = [])
    (hf : g.filter (fun v => pyStartsWith v "http://") = u :: rest) :
    choose_rep g = u := by
  unfold choose_rep
  by_cases hlen : g.length = 1
  · rw [if_pos hlen]
    have hu : u ∈ g := List.mem_of_mem_filter (hf ▸ List.mem_cons_self u rest)
    cases g with
    | nil => simp at hlen
    | cons x xs =>
      simp only [List.length_cons] at hlen
      have hxs : xs = [] := List.length_eq_zero.mp (by omega)
      subst hxs
      simp only [List.headD_cons]
      exact (List.mem_singleton.mp hu).symm
  · rw [if_neg hlen, hno, hf]

theorem map_eq_of_pointwise {α β : Type} :
    ∀ (l : List α) (f g : α → β), (∀ a ∈ l, f a = g a) → l.map f = l.map g := by
  intro l
  induction l with
  | nil => intro f g _; rfl
  | cons x xs ih =>
    intro f g h
    simp only [List.map_cons]
    rw [h x (List.mem_cons_self x xs), ih f g (fun a ha => h a (List.mem_cons_of_mem x ha))]

theorem build_groups_group_ne_nil (l : List String) (g : String × List String)
    (hg : g ∈ build_groups l []) : g.2 ≠ [] := by
  have hkey : g.1 ∈ (build_groups l []).map Prod.fst := List.mem_map_of_mem Prod.fst hg
  rw [build_groups_keys_mem l [] g.1] at hkey
  rcases hkey with h | ⟨u, hu, huk⟩
  · simp at h
  · rw [build_groups_group_eq l g hg]
    intro hemp
    have : u ∈ l.filter (fun v => canonical_key v = g.1) :=
      List.mem_filter.mpr ⟨hu, by simp [huk]⟩
    rw [hemp] at this
    exact (List.not_mem_nil u) this

theorem dedup_urls_mem_uniq (succ fail : Finset String) (l : List String) (u : String)
    (hu : u ∈ dedup_urls succ fail l) : u ∈ unique_pass (succ ∪ fail) l [] := by
  simp only [dedup_urls] at hu
  rcases List.mem_map.mp hu with ⟨g, hg, hgu⟩
  have hmem : choose_rep g.2 ∈ g.2 := choose_rep_mem g.2 (build_groups_group_ne_nil _ g hg)
  rw [hgu] at hmem
  have := build_groups_group_eq _ g hg
  rw [this] at hmem
  exact List.mem_of_mem_filter hmem

theorem dedup_urls_props (succ fail : Finset String) (l : List String) (u : String)
    (hu : u ∈ dedup_urls succ fail l) :
    u ∈ l ∧ (pyUrlparse u).fragment = "" ∧ u ∉ succ ∧ u ∉ fail := by
  have huq := dedup_urls_mem_uniq succ fail l u hu
  rcases unique_pass_sub (succ ∪ fail) l [] u huq with h | h
  · exact absurd h (List.not_mem_nil u)
  · refine ⟨h.1, h.2.1, ?_, ?_⟩
    · exact fun hs => h.2.2 (Finset.mem_union_left fail hs)
    · exact fun hf => h.2.2 (Finset.mem_union_right succ hf)

theorem dedup_urls_map_key (succ fail : Finset String) (l : List String) :
    (dedup_urls succ fail l).map canonical_key =
      (build_groups (unique_pass (succ ∪ fail) l []) []).map Prod.fst := by
  simp only [dedup_urls, List.map_map]
  apply map_eq_of_pointwise
  intro g hg
  simp only [Function.comp_apply]
  have hmem : choose_rep g.2 ∈ g.2 := choose_rep_mem g.2 (build_groups_group_ne_nil _ g hg)
  have heq := build_groups_group_eq _ g hg
  rw [heq] at hmem ⊢
  exact of_decide_eq_true (List.mem_filter.mp hmem).2

theorem dedup_urls_nodup (succ fail : Finset String) (l : List String) :
    (dedup_urls succ fail l).Nodup := by
  apply List.Nodup.of_map canonical_key
  rw [dedup_urls_map_key]
  exact build_groups_keys_nodup _ [] (by simp)

theorem dedup_urls_length_le (succ fail : Finset String) (l : List String) :
    (dedup_urls succ fail l).length ≤ l.length := by
  simp only [dedup_urls, List.length_map]
  have h1 := build_groups_length (unique_pass (succ ∪ fail) l []) []
  have h2 := unique_pass_length (succ ∪ fail) l []
  simp only [List.length_nil] at h1 h2
  omega

theorem build_groups_of_fresh_keys :
    ∀ (l : List String) (gs : List (String × List String)),
      (gs.map Prod.fst ++ l.map canonical_key).Nodup →
      build_groups l gs = gs ++ l.map (fun u => (canonical_key u, [u])) := by
  intro l
  induction l with
  | nil =>
    intro gs _
    simp [build_groups]
  | cons x xs ih =>
    intro gs hnd
    have hx : canonical_key x ∉ gs.map Prod.fst := by
      rw [List.nodup_append] at hnd
      exact fun hmem => hnd.2.2 hmem (by simp)
    simp only [build_groups]
    rw [add_to_groups_fresh gs (canonical_key x) x hx]
    rw [ih (gs ++ [(canonical_key x, [x])]) (by
      simp only [List.map_append, List.map_cons, List.map_nil] at hnd ⊢
      simp only [List.append_assoc, List.singleton_append]
      simpa using hnd)]
    simp

/-- C6: with a fixed already-seen pair of sets, `_deduplicate_urls` is
idempotent: its output passes through unchanged when deduplicated again,
because the output is duplicate-free, fragment-free, disjoint from the
seen sets, and holds exactly one URL per canonical key. -/
theorem dedup_urls_idempotent (succ fail : Finset String) (X : List String) :
    dedup_urls succ fail (dedup_urls succ fail X) = dedup_urls succ fail X := by
  set out := dedup_urls succ fail X with hout
  have hclean : unique_pass (succ ∪ fail) out [] = out := by
    have := unique_pass_of_clean (succ ∪ fail) out [] (dedup_urls_nodup succ fail X)
      (fun u hu => by
        have hp := dedup_urls_props succ fail X u hu
        refine ⟨hp.2.1, ?_, List.not_mem_nil u⟩
        intro hmem
        rcases Finset.mem_union.mp hmem with h | h
        · exact hp.2.2.1 h
        · exact hp.2.2.2 h)
    simpa using this
  have hkeys : (out.map canonical_key).Nodup := by
    rw [hout, dedup_urls_map_key]
    exact build_groups_keys_nodup _ [] (by simp)
  conv_lhs => rw [dedup_urls, hclean]
  rw [build_groups_of_fresh_keys out [] (by simpa using hkeys)]
  simp only [List.nil_append, List.map_map]
  rw [map_eq_of_pointwise out _ id (fun u _ => by
    simp only [Function.comp_apply]
    exact choose_rep_singleton u)]
  exact List.map_id out

/-! ### Lemmas about `process_depth` and the depth loop -/

theorem pyTruncate_length_le (l : List String) (n : Int) :
    (pyTruncate l n).length ≤ l.length := by
  unfold pyTruncate
  split <;> simp [List.length_take]

theorem pyTruncate_length_le_toNat (l : List String) (n : Int) (hn : 0 ≤ n) :
    (pyTruncate l n).length ≤ n.toNat := by
  unfold pyTruncate
  rw [if_pos hn]
  simp [List.length_take]

theorem process_depth_fst (net : Net) (join : Join) (domain : String)
    (maxUrls batchSize : Nat) (urls : List String) (st : CrawlState) :
    (process_depth net join domain maxUrls batchSize urls st).1 =
      (process_batches net join domain maxUrls (chunks batchSize urls) st []).1 := rfl

theorem process_depth_snd (net : Net) (join : Join) (domain : String)
    (maxUrls batchSize : Nat) (urls : List String) (st : CrawlState) :
    (process_depth net join domain maxUrls batchSize urls st).2 =
      pyTruncate (process_batches net join domain maxUrls (chunks batchSize urls) st []).2
        ((maxUrls : Int) -
          ((process_batches net join domain maxUrls
            (chunks batchSize urls) st []).1.successful.card : Int)) := rfl

theorem process_depth_keeps (net : Net) (join : Join) (domain : String)
    (maxUrls batchSize : Nat) (urls : List String) (st : CrawlState) :
    (process_depth net join domain maxUrls batchSize urls st).1.boundaries = st.boundaries ∧
    (process_depth net join domain maxUrls batchSize urls st).1.maxDepthReached =
      st.maxDepthReached := by
  rw [process_depth_fst]
  exact process_batches_keeps net join domain maxUrls (chunks batchSize urls) st []

theorem process_depth_succ_mono (net : Net) (join : Join) (domain : String)
    (maxUrls batchSize : Nat) (urls : List String) (st : CrawlState) :
    st.successful ⊆ (process_depth net join domain maxUrls batchSize urls st).1.successful := by
  rw [process_depth_fst]
  exact process_batches_succ_mono net join domain maxUrls (chunks batchSize urls) st []

theorem process_depth_fail_mono (net : Net) (join : Join) (domain : String)
    (maxUrls batchSize : Nat) (urls : List String) (st : CrawlState) :
    st.failed ⊆ (process_depth net join domain maxUrls batchSize urls st).1.failed := by
  rw [process_depth_fst]
  exact process_batches_fail_mono net join domain maxUrls (chunks batchSize urls) st []

theorem process_depth_card (net : Net) (join : Join) (domain : String)
    (maxUrls batchSize : Nat) (hb : 0 < batchSize) (urls : List String) (st : CrawlState) :
    (process_depth net join domain maxUrls batchSize urls st).1.successful.card ≤
      st.successful.card + urls.length := by
  rw [process_depth_fst]
  have := process_batches_card net join domain maxUrls (chunks batchSize urls) st []
  rwa [chunks_join batchSize hb urls.length urls le_rfl] at this

theorem process_depth_inter (net : Net) (join : Join) (domain : String)
    (maxUrls batchSize : Nat) (hb : 0 < batchSize) (H : Finset String)
    (urls : List String) (st : CrawlState)
    (hnd : urls.Nodup)
    (hcond : ∀ u ∈ urls, (u ∉ st.successful ∨ u ∈ H) ∧ (u ∉ st.failed ∨ u ∈ H))
    (hsf : st.successful ∩ st.failed ⊆ H) :
    (process_depth net join domain maxUrls batchSize urls st).1.successful ∩
      (process_depth net join domain maxUrls batchSize urls st).1.failed ⊆ H := by
  rw [process_depth_fst]
  apply process_batches_inter net join domain maxUrls H (chunks batchSize urls) st []
  · rwa [chunks_join batchSize hb urls.length urls le_rfl]
  · rwa [chunks_join batchSize hb urls.length urls le_rfl]
  · exact hsf

theorem process_batches_single (net : Net) (join : Join) (domain : String)
    (maxUrls : Nat) (b : List String) (st : CrawlState) (next : List String) :
    process_batches net join domain maxUrls [b] st next =
      ({ st with
          successful := (process_results (process_batch net join domain b)
            st.successful st.failed []).1,
          failed := (process_results (process_batch net join domain b)
            st.successful st.failed []).2.1,
          fetched := st.fetched ++ b },
        next ++ (process_results (process_batch net join domain b)
          st.successful st.failed []).2.2) := by
  simp only [process_batches]
  split <;> rfl

theorem process_depth_homepage (net : Net) (join : Join) (domain : String)
    (maxUrls batchSize : Nat) (hb : 0 < batchSize) (h : String) (st : CrawlState)
    (hh : h ∈ st.successful) :
    (process_depth net join domain maxUrls batchSize [h] st).1.successful = st.successful ∧
    (process_depth net join domain maxUrls batchSize [h] st).1.fetched =
      st.fetched ++ [h] := by
  rw [process_depth_fst, chunks_singleton batchSize hb h, process_batches_single]
  simp only []
  constructor
  · cases hst : (crawl_url_task net join domain h).status with
    | success =>
      simp only [process_batch, List.map_cons, List.map_nil, process_results, hst]
      rw [crawl_url_task_url]
      exact Finset.insert_eq_self.mpr hh
    | failed =>
      simp only [process_batch, List.map_cons, List.map_nil, process_results, hst]
    | error =>
      simp only [process_batch, List.map_cons, List.map_nil, process_results, hst]
  · trivial

theorem markBoundary_sets (st : CrawlState) :
    (markBoundary st).successful = st.successful ∧ (markBoundary st).failed = st.failed ∧
    (markBoundary st).maxDepthReached = st.maxDepthReached ∧
    (markBoundary st).boundaries = st.boundaries ++ [(st.successful, st.failed)] :=
  ⟨rfl, rfl, rfl, rfl⟩

theorem depth_then_mark_mono (net : Net) (join : Join) (domain : String)
    (maxUrls batchSize : Nat) (urls : List String) (st : CrawlState) :
    st.successful ⊆
      (markBoundary (process_depth net join domain maxUrls batchSize urls st).1).successful ∧
    st.failed ⊆
      (markBoundary (process_depth net join domain maxUrls batchSize urls st).1).failed :=
  ⟨process_depth_succ_mono net join domain maxUrls batchSize urls st,
    process_depth_fail_mono net join domain maxUrls batchSize urls st⟩

theorem crawl_from_mono (net : Net) (join : Join) (domain : String) (maxUrls batchSize : Nat) :
    ∀ (d depth : Nat) (st : CrawlState) (next : List String),
      st.successful ⊆ (crawl_from net join domain maxUrls batchSize d depth st next).successful ∧
      st.failed ⊆ (crawl_from net join domain maxUrls batchSize d depth st next).failed := by
  intro d
  induction d with
  | zero =>
    intro depth st next
    exact ⟨Finset.Subset.refl _, Finset.Subset.refl _⟩
  | succ d ih =>
    intro depth st next
    simp only [crawl_from]
    by_cases hne : next.isEmpty
    · rw [if_pos hne]
      exact ⟨Finset.Subset.refl _, Finset.Subset.refl _⟩
    · rw [if_neg hne]
      by_cases hstop : maxUrls ≤ (markBoundary (process_depth net join domain maxUrls batchSize
          (dedup_urls st.successful st.failed next)
          { st with maxDepthReached := depth }).1).successful.card
      · rw [if_pos hstop]
        exact depth_then_mark_mono net join domain maxUrls batchSize
          (dedup_urls st.successful st.failed next) { st with maxDepthReached := depth }
      · rw [if_neg hstop]
        have hmono := ih (depth + 1)
          (markBoundary (process_depth net join domain maxUrls batchSize
            (dedup_urls st.successful st.failed next)
            { st with maxDepthReached := depth }).1)
          (process_depth net join domain maxUrls batchSize
            (dedup_urls st.successful st.failed next)
            { st with maxDepthReached := depth }).2
        have hdm := depth_then_mark_mono net join domain maxUrls batchSize
          (dedup_urls st.successful st.failed next) { st with maxDepthReached := depth }
        exact ⟨Finset.Subset.trans hdm.1 hmono.1, Finset.Subset.trans hdm.2 hmono.2⟩

theorem crawl_from_card (net : Net) (join : Join) (domain : String)
    (maxUrls batchSize : Nat) (hb : 0 < batchSize) :
    ∀ (d depth : Nat) (st : CrawlState) (next : List String),
      st.successful.card ≤ maxUrls → st.successful.card + next.length ≤ maxUrls →
      (crawl_from net join domain maxUrls batchSize d depth st next).successful.card ≤
        maxUrls := by
  intro d
  induction d with
  | zero =>
    intro depth st next h1 _
    exact h1
  | succ d ih =>
    intro depth st next h1 h2
    simp only [crawl_from]
    by_cases hne : next.isEmpty
    · rw [if_pos hne]
      exact h1
    · rw [if_neg hne]
      have hlen : (dedup_urls st.successful st.failed next).length ≤ next.length :=
        dedup_urls_length_le st.successful st.failed next
      have hcard : (process_depth net join domain maxUrls batchSize
          (dedup_urls st.successful st.failed next)
          { st with maxDepthReached := depth }).1.successful.card ≤ maxUrls := by
        have := process_depth_card net join domain maxUrls batchSize hb
          (dedup_urls st.successful st.failed next) { st with maxDepthReached := depth }
        simp only [] at this
        omega
      by_cases hstop : maxUrls ≤ (markBoundary (process_depth net join domain maxUrls batchSize
          (dedup_urls st.successful st.failed next)
          { st with maxDepthReached := depth }).1).successful.card
      · rw [if_pos hstop]
        exact hcard
      · rw [if_neg hstop]
        apply ih
        · exact hcard
        · have hnext : (process_depth net join domain maxUrls batchSize
              (dedup_urls st.successful st.failed next)
              { st with maxDepthReached := depth }).2.length ≤
              maxUrls - (process_depth net join domain maxUrls batchSize
                (dedup_urls st.successful st.failed next)
                { st with maxDepthReached := depth }).1.successful.card := by
            rw [process_depth_snd]
            have hge : (0 : Int) ≤ (maxUrls : Int) -
                ((process_batches net join domain maxUrls
                  (chunks batchSize (dedup_urls st.successful st.failed next))
                  { st with maxDepthReached := depth } []).1.successful.card : Int) := by
              have : (process_batches net join domain maxUrls
                  (chunks batchSize (dedup_urls st.successful st.failed next))
                  { st with maxDepthReached := depth } []).1.successful.card ≤ maxUrls := by
                rw [process_depth_fst] at hcard
                exact hcard
              omega
            have := pyTruncate_length_le_toNat
              (process_batches net join domain maxUrls
                (chunks batchSize (dedup_urls st.successful st.failed next))
                { st with maxDepthReached := depth } []).2 _ hge
            rw [process_depth_fst]
            omega
          have hg : (markBoundary (process_depth net join domain maxUrls batchSize
              (dedup_urls st.successful st.failed next)
              { st with maxDepthReached := depth }).1).successful.card =
              (process_depth net join domain maxUrls batchSize
                (dedup_urls st.successful st.failed next)
                { st with maxDepthReached := depth }).1.successful.card := rfl
          omega

theorem crawl_from_inter (net : Net) (join : Join) (domain : String)
    (maxUrls batchSize : Nat) (hb : 0 < batchSize) (H : Finset String) :
    ∀ (d depth : Nat) (st : CrawlState) (next : List String),
      st.successful ∩ st.failed ⊆ H →
      (∀ p ∈ st.boundaries, p.1 ∩ p.2 ⊆ H) →
      (crawl_from net join domain maxUrls batchSize d depth st next).successful ∩
        (crawl_from net join domain maxUrls batchSize d depth st next).failed ⊆ H ∧
      ∀ p ∈ (crawl_from net join domain maxUrls batchSize d depth st next).boundaries,
        p.1 ∩ p.2 ⊆ H := by
  intro d
  induction d with
  | zero =>
    intro depth st next hsf hbd
    exact ⟨hsf, hbd⟩
  | succ d ih =>
    intro depth st next hsf hbd
    simp only [crawl_from]
    by_cases hne : next.isEmpty
    · rw [if_pos hne]
      exact ⟨hsf, hbd⟩
    · rw [if_neg hne]
      have hinter : (process_depth net join domain maxUrls batchSize
          (dedup_urls st.successful st.failed next)
          { st with maxDepthReached := depth }).1.successful ∩
          (process_depth net join domain maxUrls batchSize
            (dedup_urls st.successful st.failed next)
            { st with maxDepthReached := depth }).1.failed ⊆ H := by
        apply process_depth_inter net join domain maxUrls batchSize hb H _ _
          (dedup_urls_nodup st.successful st.failed next)
        · intro u hu
          have hp := dedup_urls_props st.successful st.failed next u hu
          exact ⟨Or.inl hp.2.2.1, Or.inl hp.2.2.2⟩
        · exact hsf
      have hbd' : ∀ p ∈ (markBoundary (process_depth net join domain maxUrls batchSize
          (dedup_urls st.successful st.failed next)
          { st with maxDepthReached := depth }).1).boundaries, p.1 ∩ p.2 ⊆ H := by
        intro p hp
        simp only [markBoundary, List.mem_append, List.mem_singleton] at hp
        rcases hp with h | h
        · have hkeep := process_depth_keeps net join domain maxUrls batchSize
            (dedup_urls st.successful st.failed next) { st with maxDepthReached := depth }
          rw [hkeep.1] at h
          exact hbd p h
        · subst h
          exact hinter
      by_cases hstop : maxUrls ≤ (markBoundary (process_depth net join domain maxUrls batchSize
          (dedup_urls st.successful st.failed next)
          { st with maxDepthReached := depth }).1).successful.card
      · rw [if_pos hstop]
        exact ⟨hinter, hbd'⟩
      · rw [if_neg hstop]
        exact ih (depth + 1) _ _ hinter hbd'

/-! ### Concrete oracles used by counterexamples and witnesses -/

/-- Network oracle timing out on every URL. -/
def netTimeoutAll : Net := fun _ => NetResult.timeout

/-- Network oracle answering every URL with an empty 200 page. -/
def netOk200 : Net := fun _ => NetResult.http 200 []

/-- Network oracle answering every URL with an empty 204 page. -/
def net204 : Net := fun _ => NetResult.http 204 []

/-- Network oracle whose homepage links to an ftp URL on the same host;
every other fetch times out. -/
def netFtpLink : Net := fun u =>
  if u = "https://example.com" then NetResult.http 200 ["ftp://example.com/page"]
  else NetResult.timeout

/-- Join collaborator returning the href unchanged, as `urljoin` does on
absolute hrefs. -/
def joinKeep : Join := fun _ h => h

/-! ### Additional frontier-origin lemmas -/

theorem chunksFuel_mem_sub :
    ∀ (fuel n : Nat) (l b : List String), b ∈ chunksFuel fuel n l → ∀ v ∈ b, v ∈ l := by
  intro fuel
  induction fuel with
  | zero =>
    intro n l b hb
    simp [chunksFuel] at hb
  | succ m ih =>
    intro n l b hb v hv
    cases l with
    | nil => simp [chunksFuel] at hb
    | cons x xs =>
      simp only [chunksFuel, List.mem_cons] at hb
      rcases hb with h | h
      · subst h
        exact List.take_subset n (x :: xs) hv
      · exact List.drop_subset n (x :: xs) (ih n ((x :: xs).drop n) b h v hv)

theorem chunks_mem_sub (n : Nat) (l b : List String) (hb : b ∈ chunks n l) :
    ∀ v ∈ b, v ∈ l := by
  unfold chunks at hb
  by_cases hn : n = 0
  · rw [if_pos hn] at hb
    exact absurd hb (List.not_mem_nil b)
  · rw [if_neg hn] at hb
    exact chunksFuel_mem_sub l.length n l b hb

theorem process_batches_collected (net : Net) (join : Join) (domain : String) (maxUrls : Nat) :
    ∀ (bs : List (List String)) (st : CrawlState) (next : List String) (u : String),
      u ∈ (process_batches net join domain maxUrls bs st next).2 →
        u ∈ next ∨ ∃ b ∈ bs, ∃ r ∈ process_batch net join domain b,
          r.status = FetchStatus.success ∧ u ∈ r.new_urls := by
  intro bs
  induction bs with
  | nil =>
    intro st next u hu
    exact Or.inl hu
  | cons b bs ih =>
    intro st next u hu
    simp only [process_batches] at hu
    have hstep : ∀ w : String,
        w ∈ next ++ (process_results (process_batch net join domain b)
          st.successful st.failed []).2.2 →
        w ∈ next ∨ ∃ b' ∈ b :: bs, ∃ r ∈ process_batch net join domain b',
          r.status = FetchStatus.success ∧ w ∈ r.new_urls := by
      intro w hw
      rcases List.mem_append.mp hw with h | h
      · exact Or.inl h
      · rcases process_results_collected _ _ _ _ w h with h' | h'
        · exact absurd h' (List.not_mem_nil w)
        · rcases h' with ⟨r, hr, hrs, hru⟩
          exact Or.inr ⟨b, List.mem_cons_self b bs, r, hr, hrs, hru⟩
    by_cases h : maxUrls ≤ (process_results (process_batch net join domain b)
        st.successful st.failed []).1.card
    · rw [if_pos h] at hu
      exact hstep u hu
    · rw [if_neg h] at hu
      rcases ih _ _ u hu with h' | h'
      · exact hstep u h'
      · rcases h' with ⟨b', hb', r, hr, hrs, hru⟩
        exact Or.inr ⟨b', List.mem_cons_of_mem b hb', r, hr, hrs, hru⟩

theorem pyTruncate_subset (l : List String) (n : Int) (u : String)
    (hu : u ∈ pyTruncate l n) : u ∈ l := by
  unfold pyTruncate at hu
  split at hu
  · exact List.take_subset _ l hu
  · exact List.take_subset _ l hu

theorem process_depth_frontier (net : Net) (join : Join) (domain : String)
    (maxUrls batchSize : Nat) (urls : List String) (st : CrawlState) (u : String)
    (hu : u ∈ (process_depth net join domain maxUrls batchSize urls st).2) :
    ∃ v ∈ urls, (crawl_url_task net join domain v).status = FetchStatus.success ∧
      u ∈ (crawl_url_task net join domain v).new_urls := by
  rw [process_depth_snd] at hu
  have hu' := pyTruncate_subset _ _ u hu
  rcases process_batches_collected net join domain maxUrls _ _ _ u hu' with h | h
  · exact absurd h (List.not_mem_nil u)
  · rcases h with ⟨b, hb, r, hr, hrs, hru⟩
    rcases List.mem_map.mp hr with ⟨v, hv, hvr⟩
    exact ⟨v, chunks_mem_sub batchSize urls b hb v hv, hvr ▸ hrs, hvr ▸ hru⟩

/-! ### Claim theorems -/

/-- C4 counterexample: a 204 response (a 2xx status) does not yield a
success outcome as the claim states; `_crawl_url` treats every status
other than 200 as failed. -/
theorem fetch_2xx_counterexample :
    (crawl_url_task net204 joinKeep "example.com" "https://example.com").status =
      FetchStatus.failed ∧
    ¬ (crawl_url_task net204 joinKeep "example.com" "https://example.com").status =
      FetchStatus.success := by
  constructor
  · rfl
  · intro h
    exact absurd h (by decide)

/-- C4 (amended): for every fetched URL answered with an HTTP response,
a status other than exactly 200 yields a failed outcome with no links
(and every non-success outcome url is folded into failedURLs while the
remaining outcomes of the batch are still processed), and status exactly
200 yields a success outcome whose newLinks are the links extracted from
the body. -/
theorem fetch_status_dispatch (net : Net) (join : Join) (domain url : String)
    (s : Nat) (hrefs : List String) (hnet : net url = NetResult.http s hrefs) :
    (s ≠ 200 → crawl_url_task net join domain url =
      ⟨url, FetchStatus.failed, []⟩) ∧
    (s = 200 → crawl_url_task net join domain url =
      ⟨url, FetchStatus.success, extract_links join domain url hrefs⟩) ∧
    (∀ (results : List FetchOutcome) (sf ff : Finset String) (acc : List String)
        (r : FetchOutcome), r ∈ results → r.status ≠ FetchStatus.success →
        r.url ∈ (process_results results sf ff acc).2.1) := by
  refine ⟨?_, ?_, ?_⟩
  · intro hs
    simp [crawl_url_task, crawl_url, hnet, hs]
  · intro hs
    subst hs
    simp [crawl_url_task, crawl_url, hnet]
  · intro results sf ff acc r hr hrs
    exact process_results_fail_of_not_success results sf ff acc r hr hrs

/-- Witness for C4: the dispatch theorem applied to the concrete 204
oracle at the homepage. -/
theorem fetch_status_dispatch_witness :
    (204 ≠ 200 → crawl_url_task net204 joinKeep "example.com" "https://example.com" =
      ⟨"https://example.com", FetchStatus.failed, []⟩) ∧
    (204 = 200 → crawl_url_task net204 joinKeep "example.com" "https://example.com" =
      ⟨"https://example.com", FetchStatus.success,
        extract_links joinKeep "example.com" "https://example.com" []⟩) ∧
    (∀ (results : List FetchOutcome) (sf ff : Finset String) (acc : List String)
        (r : FetchOutcome), r ∈ results → r.status ≠ FetchStatus.success →
        r.url ∈ (process_results results sf ff acc).2.1) :=
  fetch_status_dispatch net204 joinKeep "example.com" "https://example.com" 204 [] rfl

/-- C9 counterexample: the in-crawl filter `_is_valid_domain_url` accepts
an ftp URL whose host matches the target domain, and such a URL is even
fetched at depth 1 of a crawl, contradicting the claim that the filter
applied during the crawl rejects every non-http(s) scheme. -/
theorem url_filter_scheme_counterexample :
    is_valid_domain_url "example.com" "ftp://example.com/page" = true ∧
    (pyUrlparse "ftp://example.com/page").scheme = "ftp" ∧
    "ftp://example.com/page" ∈
      (find_urls netFtpLink joinKeep "example.com" 1 50 10).fetched := by
  refine ⟨rfl, rfl, ?_⟩
  decide

/-- C9 (amended): the scheme check exists only in URLProcessorService
`_is_valid_url_for_domain` (not invoked during the crawl): that filter
rejects every URL whose parsed scheme is neither http nor https. -/
theorem url_processor_scheme_filter (url domain : String)
    (h1 : (pyUrlparse url).scheme ≠ "http") (h2 : (pyUrlparse url).scheme ≠ "https") :
    is_valid_url_for_domain url domain = false := by
  simp [is_valid_url_for_domain, h1, h2]

/-- Witness for C9: the processor filter rejects the concrete ftp URL. -/
theorem url_processor_scheme_filter_witness :
    is_valid_url_for_domain "ftp://example.com/page" "example.com" = false :=
  url_processor_scheme_filter "ftp://example.com/page" "example.com"
    (by decide) (by decide)

/-- C10: every fetch outcome whose status is not success carries an empty
newLinks list, and every URL collected for the next-depth frontier during
a depth comes from the newLinks of an outcome whose status is success. -/
theorem frontier_from_success_only (net : Net) (join : Join) (domain : String) :
    (∀ url : String, (crawl_url_task net join domain url).status ≠ FetchStatus.success →
      (crawl_url_task net join domain url).new_urls = []) ∧
    (∀ (results : List FetchOutcome) (s f : Finset String) (acc : List String) (u : String),
      u ∈ (process_results results s f acc).2.2 →
        u ∈ acc ∨ ∃ r ∈ results, r.status = FetchStatus.success ∧ u ∈ r.new_urls) ∧
    (∀ (maxUrls batchSize : Nat) (urls : List String) (st : CrawlState) (u : String),
      u ∈ (process_depth net join domain maxUrls batchSize urls st).2 →
        ∃ v ∈ urls, (crawl_url_task net join domain v).status = FetchStatus.success ∧
          u ∈ (crawl_url_task net join domain v).new_urls) := by
  refine ⟨?_, ?_, ?_⟩
  · intro url hns
    unfold crawl_url_task crawl_url at hns ⊢
    cases hnet : net url with
    | http s hrefs =>
      simp only [hnet] at hns ⊢
      by_cases hs : s ≠ 200
      · simp [hs]
      · simp only [hs, if_false] at hns ⊢
        exact absurd rfl hns
    | timeout => rfl
    | exc m => rfl
    | crash m => rfl
  · intro results s f acc u hu
    exact process_results_collected results s f acc u hu
  · intro maxUrls batchSize urls st u hu
    exact process_depth_frontier net join domain maxUrls batchSize urls st u hu

/-- Witness for C10: a timed-out fetch yields no links. -/
theorem frontier_from_success_only_witness :
    (crawl_url_task netTimeoutAll joinKeep "example.com" "https://example.com").new_urls
      = [] :=
  (frontier_from_success_only netTimeoutAll joinKeep "example.com").1
    "https://example.com" (by decide)

/-! ### Depth-0 plus loop helper lemmas -/

theorem depth0_and_loop_inter (net : Net) (join : Join) (domain hp : String)
    (maxDepth maxUrls batchSize : Nat) (hb : 0 < batchSize) (H : Finset String)
    (st0 : CrawlState) (hhp : hp ∈ H) (hfail : hp ∉ st0.failed)
    (hsf : st0.successful ∩ st0.failed ⊆ H)
    (hbd : ∀ p ∈ st0.boundaries, p.1 ∩ p.2 ⊆ H) :
    (depth0_and_loop net join domain hp maxDepth maxUrls batchSize st0).successful ∩
      (depth0_and_loop net join domain hp maxDepth maxUrls batchSize st0).failed ⊆ H ∧
    ∀ p ∈ (depth0_and_loop net join domain hp maxDepth maxUrls batchSize st0).boundaries,
      p.1 ∩ p.2 ⊆ H := by
  unfold depth0_and_loop
  have hinter : (process_depth net join domain maxUrls batchSize [hp] st0).1.successful ∩
      (process_depth net join domain maxUrls batchSize [hp] st0).1.failed ⊆ H := by
    apply process_depth_inter net join domain maxUrls batchSize hb H [hp] st0
      (List.nodup_singleton hp)
    · intro u hu
      have : u = hp := List.mem_singleton.mp hu
      subst this
      exact ⟨Or.inr hhp, Or.inl hfail⟩
    · exact hsf
  have hbd' : ∀ p ∈ (markBoundary
      (process_depth net join domain maxUrls batchSize [hp] st0).1).boundaries,
      p.1 ∩ p.2 ⊆ H := by
    intro p hp'
    simp only [markBoundary, List.mem_append, List.mem_singleton] at hp'
    rcases hp' with h | h
    · have hkeep := process_depth_keeps net join domain maxUrls batchSize [hp] st0
      rw [hkeep.1] at h
      exact hbd p h
    · subst h
      exact hinter
  by_cases hstop : maxUrls ≤ (markBoundary
      (process_depth net join domain maxUrls batchSize [hp] st0).1).successful.card
  · rw [if_pos hstop]
    exact ⟨hinter, hbd'⟩
  · rw [if_neg hstop]
    exact crawl_from_inter net join domain maxUrls batchSize hb H maxDepth 1 _ _ hinter hbd'

theorem depth0_and_loop_card (net : Net) (join : Join) (domain hp : String)
    (maxDepth maxUrls batchSize : Nat) (hb : 0 < batchSize) (st0 : CrawlState)
    (hhp : hp ∈ st0.successful) (hcard : st0.successful.card ≤ maxUrls) :
    (depth0_and_loop net join domain hp maxDepth maxUrls batchSize st0).successful.card ≤
      maxUrls := by
  unfold depth0_and_loop
  have hd0 := process_depth_homepage net join domain maxUrls batchSize hb hp st0 hhp
  have hcard' : (markBoundary
      (process_depth net join domain maxUrls batchSize [hp] st0).1).successful.card ≤
      maxUrls := by
    have : (markBoundary
        (process_depth net join domain maxUrls batchSize [hp] st0).1).successful =
        (process_depth net join domain maxUrls batchSize [hp] st0).1.successful := rfl
    rw [this, hd0.1]
    exact hcard
  by_cases hstop : maxUrls ≤ (markBoundary
      (process_depth net join domain maxUrls batchSize [hp] st0).1).successful.card
  · rw [if_pos hstop]
    exact hcard'
  · rw [if_neg hstop]
    apply crawl_from_card net join domain maxUrls batchSize hb maxDepth 1 _ _ hcard'
    have hlen : (process_depth net join domain maxUrls batchSize [hp] st0).2.length ≤
        maxUrls - (process_depth net join domain maxUrls batchSize [hp] st0).1.successful.card := by
      rw [process_depth_snd]
      have hcle : (process_batches net join domain maxUrls (chunks batchSize [hp])
          st0 []).1.successful.card ≤ maxUrls := by
        have : (process_batches net join domain maxUrls (chunks batchSize [hp])
            st0 []).1.successful.card =
            (process_depth net join domain maxUrls batchSize [hp] st0).1.successful.card := rfl
        rw [this, hd0.1]
        exact hcard
      have hge : (0 : Int) ≤ (maxUrls : Int) -
          ((process_batches net join domain maxUrls (chunks batchSize [hp])
            st0 []).1.successful.card : Int) := by omega
      have := pyTruncate_length_le_toNat
        (process_batches net join domain maxUrls (chunks batchSize [hp]) st0 []).2 _ hge
      rw [process_depth_fst]
      omega
    have hmb : (markBoundary
        (process_depth net join domain maxUrls batchSize [hp] st0).1).successful.card =
        (process_depth net join domain maxUrls batchSize [hp] st0).1.successful.card := rfl
    have he : (process_depth net join domain maxUrls
        batchSize [hp] st0).1.successful.card = st0.successful.card := by rw [hd0.1]
    omega

theorem depth0_and_loop_mono (net : Net) (join : Join) (domain hp : String)
    (maxDepth maxUrls batchSize : Nat) (st0 : CrawlState) :
    st0.successful ⊆
      (depth0_and_loop net join domain hp maxDepth maxUrls batchSize st0).successful ∧
    st0.failed ⊆
      (depth0_and_loop net join domain hp maxDepth maxUrls batchSize st0).failed := by
  unfold depth0_and_loop
  have hdm := depth_then_mark_mono net join domain maxUrls batchSize [hp] st0
  by_cases hstop : maxUrls ≤ (markBoundary
      (process_depth net join domain maxUrls batchSize [hp] st0).1).successful.card
  · rw [if_pos hstop]
    exact hdm
  · rw [if_neg hstop]
    have hcm := crawl_from_mono net join domain maxUrls batchSize maxDepth 1
      (markBoundary (process_depth net join domain maxUrls batchSize [hp] st0).1)
      (process_depth net join domain maxUrls batchSize [hp] st0).2
    exact ⟨Finset.Subset.trans hdm.1 hcm.1, Finset.Subset.trans hdm.2 hcm.2⟩

theorem depth0_and_loop_zero (net : Net) (join : Join) (domain hp : String)
    (maxUrls batchSize : Nat) (st0 : CrawlState) :
    depth0_and_loop net join domain hp 0 maxUrls batchSize st0 =
      markBoundary (process_depth net join domain maxUrls batchSize [hp] st0).1 := by
  show (if maxUrls ≤ (markBoundary
      (process_depth net join domain maxUrls batchSize [hp] st0).1).successful.card
    then markBoundary (process_depth net join domain maxUrls batchSize [hp] st0).1
    else crawl_from net join domain maxUrls batchSize 0 1
      (markBoundary (process_depth net join domain maxUrls batchSize [hp] st0).1)
      (process_depth net join domain maxUrls batchSize [hp] st0).2) =
    markBoundary (process_depth net join domain maxUrls batchSize [hp] st0).1
  split <;> rfl

/-! ### Claim theorems for the crawl invariants -/

/-- C1 counterexample: when the homepage fetch fails, the pre-seeded
homepage is also added to failedURLs, so the two sets intersect at the
homepage and are not disjoint. -/
theorem crawl_disjointness_counterexample :
    (find_urls netTimeoutAll joinKeep "example.com" 0 50 10).successful ∩
      (find_urls netTimeoutAll joinKeep "example.com" 0 50 10).failed =
      {"https://example.com"} ∧
    ¬ ((find_urls netTimeoutAll joinKeep "example.com" 0 50 10).successful ∩
      (find_urls netTimeoutAll joinKeep "example.com" 0 50 10).failed = ∅) := by
  constructor
  · decide
  · decide

/-- C1 (amended): at completion and at every recorded depth boundary, the
intersection of successfulURLs and failedURLs is contained in the
homepage singleton: every URL other than the pre-seeded homepage enters
at most one of the two sets, and the homepage can be in both only because
it is pre-seeded as successful before its own fetch. -/
theorem crawl_sets_disjoint_up_to_homepage (net : Net) (join : Join) (input : String)
    (maxDepth maxUrls batchSize : Nat) (hb : 0 < batchSize) :
    (find_urls net join input maxDepth maxUrls batchSize).successful ∩
      (find_urls net join input maxDepth maxUrls batchSize).failed ⊆
      {extract_homepage_from_url (validate_input_url input)} ∧
    ∀ p ∈ (find_urls net join input maxDepth maxUrls batchSize).boundaries,
      p.1 ∩ p.2 ⊆ {extract_homepage_from_url (validate_input_url input)} := by
  refine depth0_and_loop_inter net join
    ((pyUrlparse (extract_homepage_from_url (validate_input_url input))).netloc)
    (extract_homepage_from_url (validate_input_url input)) maxDepth maxUrls batchSize hb
    {extract_homepage_from_url (validate_input_url input)}
    { successful := insert (extract_homepage_from_url (validate_input_url input)) ∅,
      failed := ∅, maxDepthReached := 0, fetched := [], boundaries := [] }
    (Finset.mem_singleton_self _) (Finset.not_mem_empty _) ?_ ?_
  · intro x hx
    simp only [Finset.inter_empty] at hx
    exact absurd hx (Finset.not_mem_empty x)
  · intro p hp
    exact absurd hp (List.not_mem_nil p)

/-- Witness for C1 (amended) at a concrete crawl whose homepage fetch
times out. -/
theorem crawl_sets_disjoint_up_to_homepage_witness :
    (find_urls netTimeoutAll joinKeep "example.com" 1 5 2).successful ∩
      (find_urls netTimeoutAll joinKeep "example.com" 1 5 2).failed ⊆
      {extract_homepage_from_url (validate_input_url "example.com")} ∧
    ∀ p ∈ (find_urls netTimeoutAll joinKeep "example.com" 1 5 2).boundaries,
      p.1 ∩ p.2 ⊆ {extract_homepage_from_url (validate_input_url "example.com")} :=
  crawl_sets_disjoint_up_to_homepage netTimeoutAll joinKeep "example.com" 1 5 2
    (by decide)

/-- C2 counterexample: with maxURLs = 0 the crawl still fetches and keeps
the pre-seeded homepage, so the final successful count exceeds the
budget. -/
theorem crawl_budget_counterexample :
    ¬ ((find_urls netOk200 joinKeep "example.com" 0 0 10).successful.card ≤ 0) := by
  decide

/-- C2 (amended): for every crawl with maxURLs at least 1, whatever the
fetch outcomes, the final successful count never exceeds maxURLs: the
stop check runs after each batch and the next-depth frontier is truncated
to the remaining budget. -/
theorem crawl_budget_bound (net : Net) (join : Join) (input : String)
    (maxDepth maxUrls batchSize : Nat) (hb : 0 < batchSize) (hm : 1 ≤ maxUrls) :
    (find_urls net join input maxDepth maxUrls batchSize).successful.card ≤ maxUrls := by
  refine depth0_and_loop_card net join
    ((pyUrlparse (extract_homepage_from_url (validate_input_url input))).netloc)
    (extract_homepage_from_url (validate_input_url input)) maxDepth maxUrls batchSize hb
    { successful := insert (extract_homepage_from_url (validate_input_url input)) ∅,
      failed := ∅, maxDepthReached := 0, fetched := [], boundaries := [] }
    (Finset.mem_insert_self _ _) ?_
  rw [insert_emptyc_eq, Finset.card_singleton]
  exact hm

/-- Witness for C2 (amended) at a concrete crawl. -/
theorem crawl_budget_bound_witness :
    (find_urls netOk200 joinKeep "example.com" 2 5 2).successful.card ≤ 5 :=
  crawl_budget_bound netOk200 joinKeep "example.com" 2 5 2 (by decide) (by decide)

/-- C3 counterexample: a second `find_urls` call on the same FinderService
instance starts from the first call's sets, so its result contains the
first crawl's homepage even though the second invocation fetched only its
own homepage. -/
theorem crawl_fresh_state_counterexample :
    "https://a.com" ∈ (find_urls_from netOk200 joinKeep
      (find_urls netOk200 joinKeep "a.com" 0 50 10).successful
      (find_urls netOk200 joinKeep "a.com" 0 50 10).failed
      "b.com" 0 50 10).successful ∧
    (find_urls_from netOk200 joinKeep
      (find_urls netOk200 joinKeep "a.com" 0 50 10).successful
      (find_urls netOk200 joinKeep "a.com" 0 50 10).failed
      "b.com" 0 50 10).fetched = ["https://b.com"] := by
  constructor
  · decide
  · decide

/-- C3 (amended): `__init__` creates fresh empty sets per instance, but
`find_urls` never resets them: an invocation on an instance whose sets
currently hold `succ0` and `fail0` retains all of them in its result, so
invocations are independent only when each uses a fresh instance, as the
module-level entry points do. -/
theorem crawl_state_accumulates (net : Net) (join : Join) (succ0 fail0 : Finset String)
    (input : String) (maxDepth maxUrls batchSize : Nat) :
    succ0 ⊆ (find_urls_from net join succ0 fail0 input maxDepth maxUrls batchSize).successful ∧
    fail0 ⊆ (find_urls_from net join succ0 fail0 input maxDepth maxUrls batchSize).failed ∧
    find_urls net join input maxDepth maxUrls batchSize =
      find_urls_from net join ∅ ∅ input maxDepth maxUrls batchSize := by
  have hm := depth0_and_loop_mono net join
    ((pyUrlparse (extract_homepage_from_url (validate_input_url input))).netloc)
    (extract_homepage_from_url (validate_input_url input)) maxDepth maxUrls batchSize
    { successful := insert (extract_homepage_from_url (validate_input_url input)) succ0,
      failed := fail0, maxDepthReached := 0, fetched := [], boundaries := [] }
  refine ⟨?_, ?_, rfl⟩
  · exact Finset.Subset.trans (Finset.subset_insert _ _) hm.1
  · exact hm.2

/-- C7: with maxDepth = 0, whatever the fetch outcomes, the crawl reaches
depth 0 only, the final successfulURLs set is exactly the homepage
singleton, and the homepage is the only URL ever fetched. -/
theorem crawl_depth_zero (net : Net) (join : Join) (input : String)
    (maxUrls batchSize : Nat) (hb : 0 < batchSize) :
    (find_urls net join input 0 maxUrls batchSize).maxDepthReached = 0 ∧
    (find_urls net join input 0 maxUrls batchSize).successful =
      {extract_homepage_from_url (validate_input_url input)} ∧
    (find_urls net join input 0 maxUrls batchSize).fetched =
      [extract_homepage_from_url (validate_input_url input)] := by
  set hp := extract_homepage_from_url (validate_input_url input) with hhp
  set dom := (pyUrlparse hp).netloc with hdom
  set st0 : CrawlState := ⟨insert hp ∅, ∅, 0, [], []⟩ with hst0
  have hz : find_urls net join input 0 maxUrls batchSize =
      markBoundary (process_depth net join dom maxUrls batchSize [hp] st0).1 :=
    depth0_and_loop_zero net join dom hp maxUrls batchSize st0
  have hd0 := process_depth_homepage net join dom maxUrls batchSize hb hp st0
    (Finset.mem_insert_self _ _)
  have hkeep := process_depth_keeps net join dom maxUrls batchSize [hp] st0
  rw [hz]
  refine ⟨?_, ?_, ?_⟩
  · have h1 : (markBoundary
        (process_depth net join dom maxUrls batchSize [hp] st0).1).maxDepthReached =
        (process_depth net join dom maxUrls batchSize [hp] st0).1.maxDepthReached := rfl
    rw [h1, hkeep.2]
  · have h2 : (markBoundary
        (process_depth net join dom maxUrls batchSize [hp] st0).1).successful =
        (process_depth net join dom maxUrls batchSize [hp] st0).1.successful := rfl
    rw [h2, hd0.1]
    exact insert_emptyc_eq hp
  · have h3 : (markBoundary
        (process_depth net join dom maxUrls batchSize [hp] st0).1).fetched =
        (process_depth net join dom maxUrls batchSize [hp] st0).1.fetched := rfl
    rw [h3, hd0.2]
    rfl

/-- Witness for C7 at a concrete depth-0 crawl whose homepage fetch
fails. -/
theorem crawl_depth_zero_witness :
    (find_urls netTimeoutAll joinKeep "example.com" 0 7 3).maxDepthReached = 0 ∧
    (find_urls netTimeoutAll joinKeep "example.com" 0 7 3).successful =
      {extract_homepage_from_url (validate_input_url "example.com")} ∧
    (find_urls netTimeoutAll joinKeep "example.com" 0 7 3).fetched =
      [extract_homepage_from_url (validate_input_url "example.com")] :=
  crawl_depth_zero netTimeoutAll joinKeep "example.com" 7 3 (by decide)

/-! ### Scheme-preference lemmas for the deduplicator -/

theorem choose_rep_key (l : List String) (g : String × List String)
    (hg : g ∈ build_groups l []) : canonical_key (choose_rep g.2) = g.1 := by
  have hmem : choose_rep g.2 ∈ g.2 := choose_rep_mem g.2 (build_groups_group_ne_nil _ g hg)
  have heq := build_groups_group_eq _ g hg
  rw [heq] at hmem ⊢
  exact of_decide_eq_true (List.mem_filter.mp hmem).2

theorem map_rep_filter :
    ∀ (gs : List (String × List String)), (gs.map Prod.fst).Nodup →
      (∀ g ∈ gs, canonical_key (choose_rep g.2) = g.1) →
      ∀ k, (gs.map (fun g => choose_rep g.2)).filter (fun v => canonical_key v = k) =
        if k ∈ gs.map Prod.fst then [choose_rep (findG k gs)] else [] := by
  intro gs
  induction gs with
  | nil =>
    intro _ _ k
    simp
  | cons g gs ih =>
    intro hnd hkeys k
    simp only [List.map_cons, List.nodup_cons] at hnd
    have hkg : canonical_key (choose_rep g.2) = g.1 :=
      hkeys g (List.mem_cons_self g gs)
    have hrest := ih hnd.2 (fun g' hg' => hkeys g' (List.mem_cons_of_mem g hg')) k
    by_cases hk : g.1 = k
    · have hfilter_head : (List.map (fun g => choose_rep g.2) (g :: gs)).filter
          (fun v => canonical_key v = k) =
          choose_rep g.2 :: (List.map (fun g => choose_rep g.2) gs).filter
            (fun v => canonical_key v = k) := by
        simp only [List.map_cons]
        rw [List.filter_cons_of_pos (by simp [hkg, hk])]
      rw [hfilter_head, hrest]
      have hknot : k ∉ gs.map Prod.fst := hk ▸ hnd.1
      rw [if_neg hknot, if_pos (by simp [List.mem_cons, hk.symm])]
      simp only [findG, if_pos hk]
    · have hfilter_head : (List.map (fun g => choose_rep g.2) (g :: gs)).filter
          (fun v => canonical_key v = k) =
          (List.map (fun g => choose_rep g.2) gs).filter
            (fun v => canonical_key v = k) := by
        simp only [List.map_cons]
        rw [List.filter_cons_of_neg (by simp [hkg, hk])]
      rw [hfilter_head, hrest]
      have hmemiff : (k ∈ (g :: gs).map Prod.fst) ↔ (k ∈ gs.map Prod.fst) := by
        simp only [List.map_cons, List.mem_cons]
        constructor
        · rintro (h | h)
          · exact absurd h.symm hk
          · exact h
        · exact Or.inr
      by_cases hmem : k ∈ gs.map Prod.fst
      · rw [if_pos hmem, if_pos (hmemiff.mpr hmem)]
        simp only [findG, if_neg hk]
      · rw [if_neg hmem, if_neg (fun h => hmem (hmemiff.mp h))]

/-- C5: within every canonical-key group of the surviving candidates, if
any https variant exists then exactly the first https URL of the group is
kept and all other members are discarded; otherwise, if an http variant
exists, exactly the first http URL is kept.  In particular, on the input
of the spec example with an empty seen set the deduplicator returns
exactly the https variant. -/
theorem dedup_scheme_preference (succ fail : Finset String) (urls : List String)
    (k : String) :
    ((∃ u ∈ (unique_pass (succ ∪ fail) urls []).filter (fun v => canonical_key v = k),
        pyStartsWith u "https://" = true) →
      (dedup_urls succ fail urls).filter (fun v => canonical_key v = k) =
        (((unique_pass (succ ∪ fail) urls []).filter (fun v => canonical_key v = k)).filter
          (fun v => pyStartsWith v "https://")).take 1) ∧
    ((∀ u ∈ (unique_pass (succ ∪ fail) urls []).filter (fun v => canonical_key v = k),
        ¬ pyStartsWith u "https://" = true) →
      (∃ u ∈ (unique_pass (succ ∪ fail) urls []).filter (fun v => canonical_key v = k),
        pyStartsWith u "http://" = true) →
      (dedup_urls succ fail urls).filter (fun v => canonical_key v = k) =
        (((unique_pass (succ ∪ fail) urls []).filter (fun v => canonical_key v = k)).filter
          (fun v => pyStartsWith v "http://")).take 1) ∧
    dedup_urls ∅ ∅ ["http://a.com/x", "https://a.com/x"] = ["https://a.com/x"] := by
  have hknodup : ((build_groups (unique_pass (succ ∪ fail) urls []) []).map Prod.fst).Nodup :=
    build_groups_keys_nodup _ [] (by simp)
  have hout : (dedup_urls succ fail urls).filter (fun v => canonical_key v = k) =
      if k ∈ (build_groups (unique_pass (succ ∪ fail) urls []) []).map Prod.fst
      then [choose_rep (findG k (build_groups (unique_pass (succ ∪ fail) urls []) []))]
      else [] := by
    simp only [dedup_urls]
    exact map_rep_filter _ hknodup
      (fun g hg => choose_rep_key (unique_pass (succ ∪ fail) urls []) g hg) k
  have hfind : findG k (build_groups (unique_pass (succ ∪ fail) urls []) []) =
      (unique_pass (succ ∪ fail) urls []).filter (fun v => canonical_key v = k) := by
    rw [build_groups_findG]
    simp [findG]
  refine ⟨?_, ?_, by decide⟩
  · rintro ⟨u, hu, huh⟩
    have hkeymem : k ∈ (build_groups (unique_pass (succ ∪ fail) urls []) []).map Prod.fst := by
      rw [build_groups_keys_mem]
      exact Or.inr ⟨u, List.mem_of_mem_filter hu,
        of_decide_eq_true (List.mem_filter.mp hu).2⟩
    rw [hout, if_pos hkeymem, hfind]
    have hne : ((unique_pass (succ ∪ fail) urls []).filter
        (fun v => canonical_key v = k)).filter (fun v => pyStartsWith v "https://") ≠ [] := by
      intro hemp
      have : u ∈ ((unique_pass (succ ∪ fail) urls []).filter
          (fun v => canonical_key v = k)).filter (fun v => pyStartsWith v "https://") :=
        List.mem_filter.mpr ⟨hu, huh⟩
      rw [hemp] at this
      exact (List.not_mem_nil u) this
    cases hf : ((unique_pass (succ ∪ fail) urls []).filter
        (fun v => canonical_key v = k)).filter (fun v => pyStartsWith v "https://") with
    | nil => exact absurd hf hne
    | cons v rest =>
      rw [choose_rep_https _ v rest hf]
      simp
  · intro hno
    rintro ⟨u, hu, huh⟩
    have hkeymem : k ∈ (build_groups (unique_pass (succ ∪ fail) urls []) []).map Prod.fst := by
      rw [build_groups_keys_mem]
      exact Or.inr ⟨u, List.mem_of_mem_filter hu,
        of_decide_eq_true (List.mem_filter.mp hu).2⟩
    rw [hout, if_pos hkeymem, hfind]
    have hnos : ((unique_pass (succ ∪ fail) urls []).filter
        (fun v => canonical_key v = k)).filter (fun v => pyStartsWith v "https://") = [] := by
      rw [List.filter_eq_nil_iff]
      exact fun a ha => hno a ha
    have hne : ((unique_pass (succ ∪ fail) urls []).filter
        (fun v => canonical_key v = k)).filter (fun v => pyStartsWith v "http://") ≠ [] := by
      intro hemp
      have : u ∈ ((unique_pass (succ ∪ fail) urls []).filter
          (fun v => canonical_key v = k)).filter (fun v => pyStartsWith v "http://") :=
        List.mem_filter.mpr ⟨hu, huh⟩
      rw [hemp] at this
      exact (List.not_mem_nil u) this
    cases hf : ((unique_pass (succ ∪ fail) urls []).filter
        (fun v => canonical_key v = k)).filter (fun v => pyStartsWith v "http://") with
    | nil => exact absurd hf hne
    | cons v rest =>
      rw [choose_rep_http _ v rest hnos hf]
      simp

/-- Witness for C5: the https branch applied to the spec example group. -/
theorem dedup_scheme_preference_witness :
    (dedup_urls ∅ ∅ ["http://a.com/x", "https://a.com/x"]).filter
        (fun v => canonical_key v = "a.com/x") =
      (((unique_pass (∅ ∪ ∅) ["http://a.com/x", "https://a.com/x"] []).filter
        (fun v => canonical_key v = "a.com/x")).filter
          (fun v => pyStartsWith v "https://")).take 1 :=
  (dedup_scheme_preference ∅ ∅ ["http://a.com/x", "https://a.com/x"] "a.com/x").1
    (by decide)

/-! ### Priority selection assembly lemmas -/

theorem take_take_append (s rest : List String) (k : Nat) :
    (s.take k ++ rest).take k = (s ++ rest).take k := by
  rw [List.take_append_eq_append_take, List.take_take, min_self,
    List.take_append_eq_append_take, List.length_take]
  rcases Nat.le_total s.length k with h | h
  · rw [Nat.min_eq_right h]
  · have h1 : k - min k s.length = 0 := by
      rw [Nat.min_eq_left h]
      omega
    have h2 : k - s.length = 0 := by omega
    rw [h1, h2]

theorem assemble_take (B : Buckets) (maxU : Nat) :
    ∀ (cats : List Bucket) (sel : List String), sel.length ≤ maxU →
      assemble B maxU cats sel =
        (sel ++ (cats.map (fun c => sortStr (bucketList B c))).flatten).take maxU := by
  intro cats
  induction cats with
  | nil =>
    intro sel hsel
    simp only [assemble, List.map_nil, List.flatten_nil, List.append_nil]
    rw [List.take_of_length_le hsel]
  | cons c cs ih =>
    intro sel hsel
    simp only [assemble]
    by_cases hstop : maxU ≤ sel.length
    · rw [if_pos hstop]
      have hlen : sel.length = maxU := Nat.le_antisymm hsel hstop
      rw [List.take_append_eq_append_take, List.take_of_length_le hsel,
        hlen, Nat.sub_self, List.take_zero, List.append_nil]
    · rw [if_neg hstop]
      have hlen' : (sel ++ (sortStr (bucketList B c)).take (maxU - sel.length)).length ≤
          maxU := by
        simp only [List.length_append, List.length_take]
        omega
      rw [ih _ hlen']
      simp only [List.map_cons, List.flatten_cons, List.append_assoc]
      rw [List.take_append_eq_append_take]
      conv_rhs => rw [List.take_append_eq_append_take]
      congr 1
      exact take_take_append (sortStr (bucketList B c)) _ (maxU - sel.length)

/-- C8: the selector concatenates the buckets in the fixed priority order
homepage, about, faq, product, brandBlog, sitemap, blog, other, each
sorted lexicographically, truncating the total at the requested count
(the spec-side formulation `select_spec`); and on the spec example with
maxCount 3 and the configured patterns it returns exactly the homepage,
about and faq URLs in that order. -/
theorem select_priority_assembly (urls : List String) (maxU : Nat)
    (hp : Option String) :
    select_urls_to_crawl urls maxU hp PRIORITY_PAGE_PATTERNS =
      select_spec (categorize (homepage_brand_tokens hp) PRIORITY_PAGE_PATTERNS urls
        emptyBuckets) maxU ∧
    select_urls_to_crawl
      ["https://example.com/", "https://example.com/about", "https://example.com/faq",
       "https://example.com/random"] 3 (some "https://example.com")
      PRIORITY_PAGE_PATTERNS =
      ["https://example.com/", "https://example.com/about", "https://example.com/faq"] := by
  constructor
  · by_cases hurls : urls.isEmpty
    · have : urls = [] := List.isEmpty_iff.mp hurls
      subst this
      simp [select_urls_to_crawl, select_spec, categorize, sortStr, emptyBuckets]
    · have hpats : PRIORITY_PAGE_PATTERNS.isEmpty = false := rfl
      simp only [select_urls_to_crawl, hurls, Bool.false_eq_true, if_false, hpats]
      rw [assemble_take _ maxU priority_order [] (by simp)]
      simp only [List.nil_append, priority_order, List.map_cons, List.map_nil,
        List.flatten_cons, List.flatten_nil, List.append_nil, bucketList]
      rw [List.take_take, min_self]
      simp only [select_spec, List.append_assoc]
  · decide

end Verseodin
